import Mathlib

/-!
Verification of the hms-detection event-driven detection core.

Each C++ component relevant to the checked properties is shallowly embedded
as executable Lean definitions: machine floats are modelled by exact rational
arithmetic (`ℚ`), machine integers by `ℕ`/`ℤ`, fallible operations by
`Option`, and stateful components by explicit state-passing on a state
structure.  Theorems at the end of the file settle the stated properties of
the embedding.
-/

namespace HmsDetection

/-! ## DetectionEngine: detections and IoU

Embedding of `Detection` (detection_engine.h) and
`DetectionEngine::iou` (detection_engine.cpp).  The C++ float fields are
modelled as rationals; `class_name` is omitted because every checked
operation selects on `class_id` alone.
-/

structure Detection where
  class_id : Int
  confidence : ℚ
  x1 : ℚ
  y1 : ℚ
  x2 : ℚ
  y2 : ℚ
deriving DecidableEq, Inhabited

/-- Intersection area of the two axis-aligned boxes, exactly the
`inter_w * inter_h` computed by `DetectionEngine::iou` with the
`max(0, ...)` clamps. -/
def interArea (a b : Detection) : ℚ :=
  max 0 (min a.x2 b.x2 - max a.x1 b.x1) * max 0 (min a.y2 b.y2 - max a.y1 b.y1)

/-- Signed box area `(x2 - x1) * (y2 - y1)` as computed for `area_a` and
`area_b` in `DetectionEngine::iou`. -/
def boxArea (a : Detection) : ℚ :=
  (a.x2 - a.x1) * (a.y2 - a.y1)

/-- The `union_area = area_a + area_b - inter_area` value of
`DetectionEngine::iou`. -/
def unionArea (a b : Detection) : ℚ :=
  boxArea a + boxArea b - interArea a b

/-- Embedding of `DetectionEngine::iou`: returns 0 on a degenerate
(nonpositive) union, else intersection over union. -/
def iou (a b : Detection) : ℚ :=
  if unionArea a b ≤ 0 then 0 else interArea a b / unionArea a b

end HmsDetection

namespace HmsDetection

lemma interArea_nonneg (a b : Detection) : 0 ≤ interArea a b :=
  mul_nonneg (le_max_left _ _) (le_max_left _ _)

lemma interArea_comm (a b : Detection) : interArea a b = interArea b a := by
  unfold interArea
  rw [min_comm a.x2 b.x2, max_comm a.x1 b.x1, min_comm a.y2 b.y2, max_comm a.y1 b.y1]

lemma unionArea_comm (a b : Detection) : unionArea a b = unionArea b a := by
  unfold unionArea
  rw [interArea_comm, add_comm (boxArea a) (boxArea b)]

/-- When the intersection is strictly positive, the intersection area is at
most the (then necessarily positive) area of each box. -/
lemma interArea_le_boxArea_left (a b : Detection) (h : 0 < interArea a b) :
    interArea a b ≤ boxArea a := by
  unfold interArea at *
  set wx := min a.x2 b.x2 - max a.x1 b.x1 with hwx
  set wy := min a.y2 b.y2 - max a.y1 b.y1 with hwy
  have hx : 0 < max 0 wx := by
    by_contra hc
    push_neg at hc
    have : max 0 wx = 0 := le_antisymm hc (le_max_left _ _)
    rw [this, zero_mul] at h
    exact lt_irrefl _ h
  have hy : 0 < max 0 wy := by
    by_contra hc
    push_neg at hc
    have : max 0 wy = 0 := le_antisymm hc (le_max_left _ _)
    rw [this, mul_zero] at h
    exact lt_irrefl _ h
  have hwx0 : 0 < wx := by
    rcases max_cases 0 wx with ⟨h1, _⟩ | ⟨h1, h2⟩
    · rw [h1] at hx; exact absurd hx (lt_irrefl 0)
    · rw [h1] at hx; exact hx
  have hwy0 : 0 < wy := by
    rcases max_cases 0 wy with ⟨h1, _⟩ | ⟨h1, h2⟩
    · rw [h1] at hy; exact absurd hy (lt_irrefl 0)
    · rw [h1] at hy; exact hy
  have hmx : max 0 wx = wx := max_eq_right hwx0.le
  have hmy : max 0 wy = wy := max_eq_right hwy0.le
  rw [hmx, hmy]
  have hax : wx ≤ a.x2 - a.x1 := by
    have h1 : min a.x2 b.x2 ≤ a.x2 := min_le_left _ _
    have h2 : a.x1 ≤ max a.x1 b.x1 := le_max_left _ _
    rw [hwx]; linarith
  have hay : wy ≤ a.y2 - a.y1 := by
    have h1 : min a.y2 b.y2 ≤ a.y2 := min_le_left _ _
    have h2 : a.y1 ≤ max a.y1 b.y1 := le_max_left _ _
    rw [hwy]; linarith
  unfold boxArea
  exact mul_le_mul hax hay hwy0.le (by linarith)

lemma interArea_le_boxArea_right (a b : Detection) (h : 0 < interArea a b) :
    interArea a b ≤ boxArea b := by
  rw [interArea_comm] at *
  exact interArea_le_boxArea_left b a h

lemma iou_comm (a b : Detection) : iou a b = iou b a := by
  unfold iou
  rw [interArea_comm, unionArea_comm]

/-- IoU is always between 0 and 1, whatever the boxes. -/
lemma iou_mem_unit (a b : Detection) : 0 ≤ iou a b ∧ iou a b ≤ 1 := by
  unfold iou
  by_cases h : unionArea a b ≤ 0
  · simp [h]
  · push_neg at h
    simp only [if_neg (not_le.mpr h)]
    constructor
    · exact div_nonneg (interArea_nonneg a b) h.le
    · rw [div_le_one h]
      rcases lt_or_eq_of_le (interArea_nonneg a b) with hpos | hzero
      · have h1 := interArea_le_boxArea_left a b hpos
        have h2 := interArea_le_boxArea_right a b hpos
        unfold unionArea at *
        linarith
      · rw [← hzero]; exact h.le

end HmsDetection

namespace HmsDetection

/-- C7: for the embedded `DetectionEngine::iou` over exact rational
arithmetic, (1) a proper box has IoU 1 with itself; (2) disjoint boxes
(degenerate intersection on either axis) have IoU 0; (3) IoU always lies in
[0, 1]; (4) IoU is symmetric; (5) a degenerate (nonpositive) union yields
IoU 0. -/
theorem iou_spec :
    (∀ a : Detection, a.x1 < a.x2 → a.y1 < a.y2 → iou a a = 1)
    ∧ (∀ a b : Detection,
        (min a.x2 b.x2 ≤ max a.x1 b.x1 ∨ min a.y2 b.y2 ≤ max a.y1 b.y1) →
        iou a b = 0)
    ∧ (∀ a b : Detection, 0 ≤ iou a b ∧ iou a b ≤ 1)
    ∧ (∀ a b : Detection, iou a b = iou b a)
    ∧ (∀ a b : Detection, unionArea a b ≤ 0 → iou a b = 0) := by
  refine ⟨?_, ?_, ?_, ?_, ?_⟩
  · intro a hx hy
    have hself : interArea a a = boxArea a := by
      unfold interArea boxArea
      rw [min_self, max_self, min_self, max_self,
          max_eq_right (by linarith : (0:ℚ) ≤ a.x2 - a.x1),
          max_eq_right (by linarith : (0:ℚ) ≤ a.y2 - a.y1)]
    have harea : 0 < boxArea a := mul_pos (by linarith) (by linarith)
    have hunion : unionArea a a = boxArea a := by
      unfold unionArea; rw [hself]; ring
    unfold iou
    rw [hunion, hself, if_neg (not_le.mpr harea)]
    exact div_self harea.ne'
  · intro a b hdisj
    have hzero : interArea a b = 0 := by
      unfold interArea
      rcases hdisj with hx | hy
      · rw [max_eq_left (by linarith : min a.x2 b.x2 - max a.x1 b.x1 ≤ 0), zero_mul]
      · rw [max_eq_left (by linarith : min a.y2 b.y2 - max a.y1 b.y1 ≤ 0), mul_zero]
    unfold iou
    by_cases h : unionArea a b ≤ 0
    · simp [h]
    · simp [h, hzero]
  · exact iou_mem_unit
  · exact iou_comm
  · intro a b h
    unfold iou
    simp [h]

/-- Witness for C7 at concrete boxes: the unit box has IoU 1 with itself,
is disjoint from a translate, and IoU is symmetric there. -/
theorem iou_spec_witness :
    iou ⟨0, 9/10, 0, 0, 2, 2⟩ ⟨0, 9/10, 0, 0, 2, 2⟩ = 1
    ∧ iou ⟨0, 9/10, 0, 0, 2, 2⟩ ⟨1, 1/2, 5, 5, 7, 9⟩ = 0
    ∧ iou ⟨0, 9/10, 0, 0, 2, 2⟩ ⟨1, 1/2, 5, 5, 7, 9⟩
        = iou ⟨1, 1/2, 5, 5, 7, 9⟩ ⟨0, 9/10, 0, 0, 2, 2⟩ := by
  refine ⟨?_, ?_, ?_⟩
  · exact iou_spec.1 ⟨0, 9/10, 0, 0, 2, 2⟩ (by norm_num) (by norm_num)
  · exact iou_spec.2.1 ⟨0, 9/10, 0, 0, 2, 2⟩ ⟨1, 1/2, 5, 5, 7, 9⟩ (Or.inl (by norm_num))
  · exact iou_spec.2.2.2.1 ⟨0, 9/10, 0, 0, 2, 2⟩ ⟨1, 1/2, 5, 5, 7, 9⟩

end HmsDetection

namespace HmsDetection

/-! ## DetectionEngine: per-class non-maximum suppression

Embedding of `DetectionEngine::nms` (detection_engine.cpp).  The C++
groups candidate indices per `class_id` with an `unordered_map`, sorts each
group by descending confidence with `std::sort`, and greedily keeps the
first unsuppressed index, suppressing later indices of the same group whose
IoU with a kept index exceeds the threshold.  The embedding determinizes
the two orders the C++ leaves unspecified: group iteration order is modelled
by `dedup` of the class ids in list order, and ties in confidence by the
insertion-sort order; the set of kept indices per class is unaffected by
either choice.
-/

/-- Comparator used to sort a class group: descending confidence
(the `std::sort` comparator `conf[a] > conf[b]` determinized to a total
relation). -/
def confGE (dets : List Detection) (i j : ℕ) : Prop :=
  (dets.getD j default).confidence ≤ (dets.getD i default).confidence

instance (dets : List Detection) : DecidableRel (confGE dets) := fun _ _ =>
  inferInstanceAs (Decidable (_ ≤ _))

/-- Greedy suppression pass over a sorted index list: keep the head,
remove later indices whose IoU with the head exceeds the threshold
(the `suppressed` marking of `DetectionEngine::nms`). -/
def nmsGreedy (dets : List Detection) (thr : ℚ) : List ℕ → List ℕ
  | [] => []
  | i :: rest =>
      i :: nmsGreedy dets thr
        (rest.filter fun j => iou (dets.getD i default) (dets.getD j default) ≤ thr)
termination_by l => l.length
decreasing_by
  simp only [List.length_cons]
  exact Nat.lt_succ_of_le (List.length_filter_le _ _)

/-- Embedding of `DetectionEngine::nms`: per-class greedy suppression of
the index list `0 .. dets.length - 1`, returning kept indices. -/
def nms (dets : List Detection) (thr : ℚ) : List ℕ :=
  if dets.isEmpty then [] else
    ((dets.map (fun d => d.class_id)).dedup).flatMap fun cls =>
      nmsGreedy dets thr
        (List.insertionSort (confGE dets)
          ((List.range dets.length).filter
            fun i => (dets.getD i default).class_id = cls))

lemma nmsGreedy_eq_self (dets : List Detection) (thr : ℚ) (l : List ℕ)
    (hnd : l.Nodup)
    (h : ∀ x ∈ l, ∀ y ∈ l, x ≠ y →
      iou (dets.getD x default) (dets.getD y default) ≤ thr) :
    nmsGreedy dets thr l = l := by
  induction l with
  | nil => simp [nmsGreedy]
  | cons i rest ih =>
    rw [nmsGreedy]
    have hfilter :
        (rest.filter fun j =>
          decide (iou (dets.getD i default) (dets.getD j default) ≤ thr)) = rest := by
      apply List.filter_eq_self.mpr
      intro j hj
      simp only [decide_eq_true_eq]
      refine h i (List.mem_cons_self i rest) j (List.mem_cons_of_mem i hj) ?_
      intro he
      exact (List.nodup_cons.mp hnd).1 (he ▸ hj)
    rw [hfilter]
    rw [ih (List.nodup_cons.mp hnd).2
      (fun x hx y hy hxy =>
        h x (List.mem_cons_of_mem i hx) y (List.mem_cons_of_mem i hy) hxy)]

lemma nms_pair_same_class_fst (a b : Detection) (thr : ℚ)
    (hcls : a.class_id = b.class_id) (hiou : thr < iou a b)
    (hconf : b.confidence < a.confidence) :
    nms [a, b] thr = [0] := by
  have hC : ([a, b].map (fun d => d.class_id)).dedup = [b.class_id] := by
    simp [hcls]
  have hg0 : ([a, b].getD 0 default) = a := rfl
  have hg1 : ([a, b].getD 1 default) = b := rfl
  rw [nms]
  simp only [List.isEmpty_cons, hC]
  have hI : ((List.range 2).filter
      fun i => decide (([a, b].getD i default).class_id = b.class_id)) = [0, 1] := by
    have hr : List.range 2 = [0, 1] := by rfl
    rw [hr]
    simp [List.filter, hg0, hg1, hcls]
  simp only [List.length_cons, List.length_nil, List.flatMap_cons, List.flatMap_nil,
    List.append_nil]
  rw [show (0:ℕ) + 1 + 1 = 2 by rfl] at *
  rw [hI]
  have hsort : List.insertionSort (confGE [a, b]) [0, 1] = [0, 1] := by
    simp [List.insertionSort, List.orderedInsert, confGE, hg0, hg1, hconf.le]
  rw [hsort, nmsGreedy]
  have hfil : ([1].filter
      fun j => decide (iou ([a, b].getD 0 default) ([a, b].getD j default) ≤ thr)) = [] := by
    simp [List.filter, hg0, hg1, not_le.mpr hiou]
  rw [hfil, nmsGreedy]
  simp

lemma nms_pair_same_class_snd (a b : Detection) (thr : ℚ)
    (hcls : a.class_id = b.class_id) (hiou : thr < iou a b)
    (hconf : a.confidence < b.confidence) :
    nms [a, b] thr = [1] := by
  have hC : ([a, b].map (fun d => d.class_id)).dedup = [b.class_id] := by
    simp [hcls]
  have hg0 : ([a, b].getD 0 default) = a := rfl
  have hg1 : ([a, b].getD 1 default) = b := rfl
  rw [nms]
  simp only [List.isEmpty_cons, hC]
  have hI : ((List.range 2).filter
      fun i => decide (([a, b].getD i default).class_id = b.class_id)) = [0, 1] := by
    have hr : List.range 2 = [0, 1] := by rfl
    rw [hr]
    simp [List.filter, hg0, hg1, hcls]
  simp only [List.length_cons, List.length_nil, List.flatMap_cons, List.flatMap_nil,
    List.append_nil]
  rw [show (0:ℕ) + 1 + 1 = 2 by rfl] at *
  rw [hI]
  have hsort : List.insertionSort (confGE [a, b]) [0, 1] = [1, 0] := by
    simp [List.insertionSort, List.orderedInsert, confGE, hg0, hg1, not_le.mpr hconf]
  rw [hsort, nmsGreedy]
  have hfil : ([0].filter
      fun j => decide (iou ([a, b].getD 1 default) ([a, b].getD j default) ≤ thr)) = [] := by
    have hiou2 : thr < iou b a := by
      rw [← iou_comm]
      exact hiou
    simp [List.filter, hg0, hg1, not_le.mpr hiou2]
  rw [hfil, nmsGreedy]
  simp

lemma nms_pair_diff_class (a b : Detection) (thr : ℚ)
    (hcls : a.class_id ≠ b.class_id) :
    nms [a, b] thr = [0, 1] := by
  have hC : ([a, b].map (fun d => d.class_id)).dedup = [a.class_id, b.class_id] := by
    simp [List.dedup_cons_of_not_mem, hcls]
  have hg0 : ([a, b].getD 0 default) = a := rfl
  have hg1 : ([a, b].getD 1 default) = b := rfl
  rw [nms]
  simp only [List.isEmpty_cons, hC]
  have hIa : ((List.range 2).filter
      fun i => decide (([a, b].getD i default).class_id = a.class_id)) = [0] := by
    have hr : List.range 2 = [0, 1] := by rfl
    rw [hr]
    simp [List.filter, hg0, hg1, hcls, Ne.symm hcls]
  have hIb : ((List.range 2).filter
      fun i => decide (([a, b].getD i default).class_id = b.class_id)) = [1] := by
    have hr : List.range 2 = [0, 1] := by rfl
    rw [hr]
    simp [List.filter, hg0, hg1, hcls]
  simp only [List.length_cons, List.length_nil, List.flatMap_cons, List.flatMap_nil,
    List.append_nil]
  rw [show (0:ℕ) + 1 + 1 = 2 by rfl] at *
  rw [hIa, hIb]
  have hs0 : List.insertionSort (confGE [a, b]) [0] = [0] := by
    simp [List.insertionSort, List.orderedInsert]
  have hs1 : List.insertionSort (confGE [a, b]) [1] = [1] := by
    simp [List.insertionSort, List.orderedInsert]
  rw [hs0, hs1, nmsGreedy]
  simp only [List.filter_nil]
  rw [nmsGreedy, nmsGreedy]
  simp only [List.filter_nil]
  rw [nmsGreedy]
  simp

lemma nms_all_survive (dets : List Detection) (thr : ℚ)
    (h : ∀ i, i < dets.length → ∀ j, j < dets.length → i ≠ j →
      (dets.getD i default).class_id = (dets.getD j default).class_id →
      iou (dets.getD i default) (dets.getD j default) ≤ thr) :
    ∀ i, i < dets.length → i ∈ nms dets thr := by
  intro i hi
  have hne : dets.isEmpty = false := by
    cases dets with
    | nil => simp at hi
    | cons _ _ => rfl
  rw [nms]
  simp only [hne, Bool.false_eq_true, if_false]
  rw [List.mem_flatMap]
  refine ⟨(dets.getD i default).class_id, ?_, ?_⟩
  · rw [List.mem_dedup, List.mem_map]
    refine ⟨dets.getD i default, ?_, rfl⟩
    rw [List.getD_eq_getElem dets default hi]
    exact List.getElem_mem hi
  · set pred := fun j => decide ((dets.getD j default).class_id
      = (dets.getD i default).class_id) with hpred
    set idx := (List.range dets.length).filter pred with hidx
    set sorted := List.insertionSort (confGE dets) idx with hsorted
    have hperm : List.Perm sorted idx := List.perm_insertionSort _ _
    have hidx_nodup : idx.Nodup := (List.nodup_range _).filter _
    have hmem_idx : ∀ x ∈ idx, x < dets.length ∧
        (dets.getD x default).class_id = (dets.getD i default).class_id := by
      intro x hx
      rw [hidx, List.mem_filter, List.mem_range] at hx
      exact ⟨hx.1, by simpa [hpred] using hx.2⟩
    rw [nmsGreedy_eq_self dets thr sorted (hperm.nodup_iff.mpr hidx_nodup)]
    · rw [hperm.mem_iff, hidx, List.mem_filter, List.mem_range]
      exact ⟨hi, by simp [hpred]⟩
    · intro x hx y hy hxy
      have hx2 := hmem_idx x (hperm.mem_iff.mp hx)
      have hy2 := hmem_idx y (hperm.mem_iff.mp hy)
      exact h x hx2.1 y hy2.1 hxy (hx2.2.trans hy2.2.symm)

/-- C6: suppression is applied independently per class.  For any two boxes
of the same class with IoU above the threshold, only the higher-confidence
one is kept (whichever position it holds); two boxes of different classes
both always survive; and in any detection list in which no two same-class
boxes overlap above the threshold, every box survives. -/
theorem nms_spec :
    (∀ (a b : Detection) (thr : ℚ), a.class_id = b.class_id → thr < iou a b →
      b.confidence < a.confidence → nms [a, b] thr = [0])
    ∧ (∀ (a b : Detection) (thr : ℚ), a.class_id = b.class_id → thr < iou a b →
      a.confidence < b.confidence → nms [a, b] thr = [1])
    ∧ (∀ (a b : Detection) (thr : ℚ), a.class_id ≠ b.class_id →
      0 ∈ nms [a, b] thr ∧ 1 ∈ nms [a, b] thr ∧ (nms [a, b] thr).length = 2)
    ∧ (∀ (dets : List Detection) (thr : ℚ),
      (∀ i, i < dets.length → ∀ j, j < dets.length → i ≠ j →
        (dets.getD i default).class_id = (dets.getD j default).class_id →
        iou (dets.getD i default) (dets.getD j default) ≤ thr) →
      ∀ i, i < dets.length → i ∈ nms dets thr) := by
  refine ⟨nms_pair_same_class_fst, nms_pair_same_class_snd, ?_, nms_all_survive⟩
  intro a b thr hcls
  rw [nms_pair_diff_class a b thr hcls]
  refine ⟨List.mem_cons_self _ _, by simp, rfl⟩

/-- Witness for C6 at concrete boxes: two identical same-class boxes
collapse to the higher-confidence one, same-geometry boxes of different
classes both survive, and disjoint same-class boxes both survive. -/
theorem nms_spec_witness :
    nms [⟨0, 9/10, 0, 0, 10, 10⟩, ⟨0, 4/5, 0, 0, 10, 10⟩] (9/20) = [0]
    ∧ (0 ∈ nms [⟨0, 9/10, 0, 0, 10, 10⟩, ⟨1, 4/5, 0, 0, 10, 10⟩] (9/20)
       ∧ 1 ∈ nms [⟨0, 9/10, 0, 0, 10, 10⟩, ⟨1, 4/5, 0, 0, 10, 10⟩] (9/20)
       ∧ (nms [⟨0, 9/10, 0, 0, 10, 10⟩, ⟨1, 4/5, 0, 0, 10, 10⟩] (9/20)).length = 2)
    ∧ 0 ∈ nms [⟨0, 9/10, 0, 0, 10, 10⟩, ⟨0, 4/5, 20, 20, 30, 30⟩] (9/20)
    ∧ 1 ∈ nms [⟨0, 9/10, 0, 0, 10, 10⟩, ⟨0, 4/5, 20, 20, 30, 30⟩] (9/20) := by
  have hiou1 : (9/20 : ℚ) < iou ⟨0, 9/10, 0, 0, 10, 10⟩ ⟨0, 4/5, 0, 0, 10, 10⟩ := by
    norm_num [iou, unionArea, interArea, boxArea]
  have hdisj : ∀ i, i < ([⟨0, 9/10, 0, 0, 10, 10⟩, ⟨0, 4/5, 20, 20, 30, 30⟩]
        : List Detection).length →
      ∀ j, j < ([⟨0, 9/10, 0, 0, 10, 10⟩, ⟨0, 4/5, 20, 20, 30, 30⟩]
        : List Detection).length → i ≠ j →
      (([⟨0, 9/10, 0, 0, 10, 10⟩, ⟨0, 4/5, 20, 20, 30, 30⟩]
        : List Detection).getD i default).class_id
        = (([⟨0, 9/10, 0, 0, 10, 10⟩, ⟨0, 4/5, 20, 20, 30, 30⟩]
        : List Detection).getD j default).class_id →
      iou (([⟨0, 9/10, 0, 0, 10, 10⟩, ⟨0, 4/5, 20, 20, 30, 30⟩]
        : List Detection).getD i default)
        (([⟨0, 9/10, 0, 0, 10, 10⟩, ⟨0, 4/5, 20, 20, 30, 30⟩]
        : List Detection).getD j default) ≤ 9/20 := by
    intro i hi j hj hne _
    simp only [List.length_cons, List.length_nil] at hi hj
    interval_cases i <;> interval_cases j <;>
      first
      | exact absurd rfl hne
      | norm_num [iou, unionArea, interArea, boxArea, List.getD]
  refine ⟨?_, ?_, ?_, ?_⟩
  · exact nms_spec.1 _ _ _ rfl hiou1 (by norm_num)
  · exact nms_spec.2.2.1 _ _ _ (by norm_num)
  · exact nms_spec.2.2.2 _ _ hdisj 0 (by norm_num)
  · exact nms_spec.2.2.2 _ _ hdisj 1 (by norm_num)

end HmsDetection

namespace HmsDetection

/-! ## DetectionEngine: letterbox preprocessing

Embedding of `FrameData` (frame_data.h) and `DetectionEngine::preprocess`
(detection_engine.cpp).  Pixel storage is modelled as a byte-fetch function
on flat offsets (the C++ reads raw bytes at `src_y * stride + src_x * 3`);
the steady-clock timestamp field is omitted (wall-clock time).  Float
arithmetic is modelled exactly over `ℚ`; `std::round` on the nonnegative
values occurring here is `⌊x + 1/2⌋`, and the `static_cast<int>` truncation
of the nonnegative `dst / scale` is `⌊·⌋`.  The `out_y < 0` / `out_x < 0`
guards of the C++ are vacuous here because both pads are nonnegative
naturals.
-/

structure FrameData where
  width : ℕ
  height : ℕ
  stride : ℕ
  frame_number : ℕ
  pixels : ℕ → ℕ

/-- Rounding of a nonnegative rational in the manner of `std::round`
(half away from zero, which is half up for the nonnegative arguments
used by `preprocess`). -/
def roundQ (x : ℚ) : ℤ := ⌊x + 1/2⌋

/-- The letterbox scale `min(input_width / img_w, input_height / img_h)`. -/
def preScale (frame : FrameData) (inW inH : ℕ) : ℚ :=
  min ((inW : ℚ) / frame.width) ((inH : ℚ) / frame.height)

/-- Scaled content width `new_w = round(img_w * scale)`. -/
def preNewW (frame : FrameData) (inW inH : ℕ) : ℕ :=
  (roundQ (frame.width * preScale frame inW inH)).toNat

/-- Scaled content height `new_h = round(img_h * scale)`. -/
def preNewH (frame : FrameData) (inW inH : ℕ) : ℕ :=
  (roundQ (frame.height * preScale frame inW inH)).toNat

/-- Horizontal padding `pad_x = (input_width - new_w) / 2` as a rational. -/
def prePadX (frame : FrameData) (inW inH : ℕ) : ℚ :=
  ((inW : ℚ) - preNewW frame inW inH) / 2

/-- Vertical padding `pad_y = (input_height - new_h) / 2` as a rational. -/
def prePadY (frame : FrameData) (inW inH : ℕ) : ℚ :=
  ((inH : ℚ) - preNewH frame inW inH) / 2

/-- The integer left offset `pad_left = round(pad_x)`. -/
def prePadLeft (frame : FrameData) (inW inH : ℕ) : ℕ :=
  (roundQ (prePadX frame inW inH)).toNat

/-- The integer top offset `pad_top = round(pad_y)`. -/
def prePadTop (frame : FrameData) (inW inH : ℕ) : ℕ :=
  (roundQ (prePadY frame inW inH)).toNat

/-- Nearest-neighbour source index: truncate `dst / scale` and clamp to
`limit - 1` (the `if (src >= img_dim) src = img_dim - 1` guard). -/
def srcIndex (scale : ℚ) (dst : ℕ) (limit : ℕ) : ℕ :=
  min (⌊(dst : ℚ) / scale⌋.toNat) (limit - 1)

/-- One inner-loop iteration of `DetectionEngine::preprocess`: write the
three channel-planar tensor entries for destination pixel
`(dst_y, dst_x)`, guarded by `out_x < input_width`. -/
def writePixel (frame : FrameData) (inW inH : ℕ) (scale : ℚ)
    (padLeft padTop : ℕ) (dstY dstX : ℕ) (t : List ℚ) : List ℚ :=
  if dstX + padLeft < inW then
    ((t.set (0 * inH * inW + ((dstY + padTop) * inW + (dstX + padLeft)))
        ((frame.pixels (srcIndex scale dstY frame.height * frame.stride
          + srcIndex scale dstX frame.width * 3 + 2) : ℚ) / 255)).set
      (1 * inH * inW + ((dstY + padTop) * inW + (dstX + padLeft)))
        ((frame.pixels (srcIndex scale dstY frame.height * frame.stride
          + srcIndex scale dstX frame.width * 3 + 1) : ℚ) / 255)).set
      (2 * inH * inW + ((dstY + padTop) * inW + (dstX + padLeft)))
        ((frame.pixels (srcIndex scale dstY frame.height * frame.stride
          + srcIndex scale dstX frame.width * 3) : ℚ) / 255)
  else t

/-- The filled NCHW tensor of `DetectionEngine::preprocess`: a flat
`3 * input_height * input_width` vector initialized with the normalized
gray 114/255 and overwritten row by row inside the letterbox rectangle. -/
def preprocessTensor (frame : FrameData) (inW inH : ℕ) : List ℚ :=
  (List.range (preNewH frame inW inH)).foldl
    (fun t dstY =>
      if dstY + prePadTop frame inW inH < inH then
        (List.range (preNewW frame inW inH)).foldl
          (fun t2 dstX => writePixel frame inW inH (preScale frame inW inH)
            (prePadLeft frame inW inH) (prePadTop frame inW inH) dstY dstX t2) t
      else t)
    (List.replicate (3 * inH * inW) (114/255))

/-- Embedding of `DetectionEngine::preprocess`: returns the scale, the two
rational pads, and the tensor. -/
def preprocess (frame : FrameData) (inW inH : ℕ) : ℚ × ℚ × ℚ × List ℚ :=
  (preScale frame inW inH, prePadX frame inW inH, prePadY frame inW inH,
    preprocessTensor frame inW inH)

/-- The tensor entry written for channel `c` at destination `(dst_y, dst_x)`:
the nearest-neighbour source pixel's byte for that channel (source is BGR,
tensor planes are R, G, B, so channel `c` reads byte `2 - c`), normalized
by 255. -/
def chanValue (frame : FrameData) (scale : ℚ) (c dstY dstX : ℕ) : ℚ :=
  let base := srcIndex scale dstY frame.height * frame.stride
    + srcIndex scale dstX frame.width * 3
  ((frame.pixels (base + (2 - c)) : ℚ)) / 255

lemma mulAdd_inj {M c p c2 p2 : ℕ} (hp : p < M) (hp2 : p2 < M)
    (h : c * M + p = c2 * M + p2) : c = c2 ∧ p = p2 := by
  have hcc : c = c2 := by
    rcases Nat.lt_trichotomy c c2 with hlt | heq | hgt
    · exfalso
      have hm : c * M + M ≤ c2 * M := by
        calc c * M + M = (c + 1) * M := by ring
          _ ≤ c2 * M := Nat.mul_le_mul_right M (Nat.succ_le_of_lt hlt)
      omega
    · exact heq
    · exfalso
      have hm : c2 * M + M ≤ c * M := by
        calc c2 * M + M = (c2 + 1) * M := by ring
          _ ≤ c * M := Nat.mul_le_mul_right M (Nat.succ_le_of_lt hgt)
      omega
  subst hcc
  exact ⟨rfl, by omega⟩

lemma foldl_length {β : Type} (f : List ℚ → β → List ℚ)
    (h : ∀ t x, (f t x).length = t.length) :
    ∀ (l : List β) (init : List ℚ), (l.foldl f init).length = init.length := by
  intro l
  induction l with
  | nil => intro init; rfl
  | cons a l ih =>
    intro init
    simp only [List.foldl_cons]
    rw [ih (f init a), h]

lemma foldl_range_getElem?_untouched (n : ℕ) (f : List ℚ → ℕ → List ℚ) (idx : ℕ)
    (huntouch : ∀ t x, x < n → (f t x)[idx]? = t[idx]?) (init : List ℚ) :
    ((List.range n).foldl f init)[idx]? = init[idx]? := by
  induction n with
  | zero => rfl
  | succ m ih =>
    rw [List.range_succ, List.foldl_append, List.foldl_cons, List.foldl_nil]
    rw [huntouch _ m (Nat.lt_succ_self m)]
    exact ih (fun t x hx => huntouch t x (Nat.lt_succ_of_lt hx))

lemma foldl_range_getElem?_write (n x0 : ℕ) (f : List ℚ → ℕ → List ℚ)
    (idx : ℕ) (v : ℚ) (L : ℕ) (hx0 : x0 < n)
    (hlen : ∀ t x, (f t x).length = t.length)
    (huntouch : ∀ t x, x < n → x ≠ x0 → (f t x)[idx]? = t[idx]?)
    (hwrite : ∀ t, t.length = L → (f t x0)[idx]? = some v)
    (init : List ℚ) (hinit : init.length = L) :
    ((List.range n).foldl f init)[idx]? = some v := by
  induction n with
  | zero => omega
  | succ m ih =>
    rw [List.range_succ, List.foldl_append, List.foldl_cons, List.foldl_nil]
    by_cases hm : m = x0
    · subst hm
      exact hwrite _ ((foldl_length f hlen _ _).trans hinit)
    · rw [huntouch _ m (Nat.lt_succ_self m) hm]
      exact ih (by omega) (fun t x hx hne => huntouch t x (Nat.lt_succ_of_lt hx) hne)

lemma writePixel_length (frame : FrameData) (inW inH : ℕ) (scale : ℚ)
    (padLeft padTop dstY dstX : ℕ) (t : List ℚ) :
    (writePixel frame inW inH scale padLeft padTop dstY dstX t).length = t.length := by
  unfold writePixel
  split
  · simp [List.length_set]
  · rfl

lemma writePixel_getElem?_ne (frame : FrameData) (inW inH : ℕ) (scale : ℚ)
    (padLeft padTop dstY dstX idx : ℕ) (t : List ℚ)
    (h : dstX + padLeft < inW → ∀ c, c < 3 →
      idx ≠ c * inH * inW + ((dstY + padTop) * inW + (dstX + padLeft))) :
    (writePixel frame inW inH scale padLeft padTop dstY dstX t)[idx]? = t[idx]? := by
  unfold writePixel
  split
  · rename_i hguard
    rw [List.getElem?_set_ne (Ne.symm (by simpa using h hguard 2 (by omega))),
        List.getElem?_set_ne (Ne.symm (by simpa using h hguard 1 (by omega))),
        List.getElem?_set_ne (Ne.symm (by simpa using h hguard 0 (by omega)))]
  · rfl

lemma writePixel_getElem?_eq (frame : FrameData) (inW inH : ℕ) (scale : ℚ)
    (padLeft padTop dstY dstX c : ℕ) (t : List ℚ) (hc : c < 3)
    (hOutY : dstY + padTop < inH) (hOutX : dstX + padLeft < inW)
    (hlen : t.length = 3 * inH * inW) :
    (writePixel frame inW inH scale padLeft padTop dstY dstX t)[c * inH * inW
        + ((dstY + padTop) * inW + (dstX + padLeft))]?
      = some (chanValue frame scale c dstY dstX) := by
  have hoff : (dstY + padTop) * inW + (dstX + padLeft) < inH * inW := by
    calc (dstY + padTop) * inW + (dstX + padLeft)
        < (dstY + padTop) * inW + inW := by omega
      _ = ((dstY + padTop) + 1) * inW := by ring
      _ ≤ inH * inW := Nat.mul_le_mul_right inW (by omega)
  have hidx : c * inH * inW + ((dstY + padTop) * inW + (dstX + padLeft))
      < 3 * inH * inW := by
    calc c * inH * inW + ((dstY + padTop) * inW + (dstX + padLeft))
        < c * inH * inW + inH * inW := by omega
      _ = (c + 1) * (inH * inW) := by ring
      _ ≤ 3 * (inH * inW) := Nat.mul_le_mul_right (inH * inW) (by omega)
      _ = 3 * inH * inW := by ring
  have hMpos : 0 < inH * inW := by
    rcases Nat.eq_zero_or_pos (inH * inW) with h0 | h0
    · omega
    · exact h0
  unfold writePixel
  rw [if_pos hOutX]
  have hplane : ∀ c1 c2 : ℕ, c1 ≠ c2 →
      c1 * inH * inW + ((dstY + padTop) * inW + (dstX + padLeft))
        ≠ c2 * inH * inW + ((dstY + padTop) * inW + (dstX + padLeft)) := by
    intro c1 c2 hne he
    have h1 : c1 * (inH * inW) + ((dstY + padTop) * inW + (dstX + padLeft))
        = c2 * (inH * inW) + ((dstY + padTop) * inW + (dstX + padLeft)) := by
      rw [← Nat.mul_assoc, ← Nat.mul_assoc]
      exact he
    exact hne (mulAdd_inj hoff hoff h1).1
  interval_cases c
  · rw [List.getElem?_set_ne (hplane 2 0 (by omega)),
        List.getElem?_set_ne (hplane 1 0 (by omega)),
        List.getElem?_set_self (by simpa [hlen] using hidx)]
    rfl
  · rw [List.getElem?_set_ne (hplane 2 1 (by omega)),
        List.getElem?_set_self (by simpa [List.length_set, hlen] using hidx)]
    rfl
  · rw [List.getElem?_set_self (by simpa [List.length_set, hlen] using hidx)]
    rfl

lemma offs_lt {inW inH y x : ℕ} (hy : y < inH) (hx : x < inW) :
    y * inW + x < inH * inW := by
  calc y * inW + x < y * inW + inW := by omega
    _ = (y + 1) * inW := by ring
    _ ≤ inH * inW := Nat.mul_le_mul_right inW (by omega)

lemma idx_lt {inW inH c y x : ℕ} (hc : c < 3) (hy : y < inH) (hx : x < inW) :
    c * inH * inW + (y * inW + x) < 3 * inH * inW := by
  calc c * inH * inW + (y * inW + x)
      < c * inH * inW + inH * inW := by
        have := offs_lt hy hx
        omega
    _ = (c + 1) * (inH * inW) := by ring
    _ ≤ 3 * (inH * inW) := Nat.mul_le_mul_right (inH * inW) (by omega)
    _ = 3 * inH * inW := by ring

/-- Decoding a flat NCHW index: equality of two in-range indices forces
equal channel, row and column. -/
lemma idx_decode {inW inH c y x c2 y2 x2 : ℕ}
    (hy : y < inH) (hx : x < inW) (hy2 : y2 < inH) (hx2 : x2 < inW)
    (h : c * inH * inW + (y * inW + x) = c2 * inH * inW + (y2 * inW + x2)) :
    c = c2 ∧ y = y2 ∧ x = x2 := by
  have h1 : c * (inH * inW) + (y * inW + x)
      = c2 * (inH * inW) + (y2 * inW + x2) := by
    rw [← Nat.mul_assoc, ← Nat.mul_assoc]
    exact h
  have hd := mulAdd_inj (offs_lt hy hx) (offs_lt hy2 hx2) h1
  have hd2 := mulAdd_inj hx hx2 hd.2
  exact ⟨hd.1, hd2⟩

lemma preprocessTensor_length (frame : FrameData) (inW inH : ℕ) :
    (preprocessTensor frame inW inH).length = 3 * inH * inW := by
  unfold preprocessTensor
  have hrow : ∀ (t : List ℚ) (dstY : ℕ),
      (if dstY + prePadTop frame inW inH < inH then
        (List.range (preNewW frame inW inH)).foldl
          (fun t2 dstX => writePixel frame inW inH (preScale frame inW inH)
            (prePadLeft frame inW inH) (prePadTop frame inW inH) dstY dstX t2) t
      else t).length = t.length := by
    intro t dstY
    split
    · exact foldl_length _ (fun t2 dstX => writePixel_length _ _ _ _ _ _ _ _ _) _ _
    · rfl
  exact (foldl_length _ hrow _ _).trans (List.length_replicate _ _)

lemma preprocessTensor_pad (frame : FrameData) (inW inH c y x : ℕ)
    (hc : c < 3) (hy : y < inH) (hx : x < inW)
    (hout : y < prePadTop frame inW inH
      ∨ prePadTop frame inW inH + preNewH frame inW inH ≤ y
      ∨ x < prePadLeft frame inW inH
      ∨ prePadLeft frame inW inH + preNewW frame inW inH ≤ x) :
    (preprocessTensor frame inW inH)[c * inH * inW + (y * inW + x)]?
      = some (114/255) := by
  unfold preprocessTensor
  rw [foldl_range_getElem?_untouched]
  · rw [List.getElem?_replicate, if_pos (idx_lt hc hy hx)]
  · intro t dstY hdstY
    split
    · rename_i hrowguard
      rw [foldl_range_getElem?_untouched]
      intro t2 dstX hdstX
      apply writePixel_getElem?_ne
      intro hguard c2 hc2 he
      have hd := idx_decode hy hx hrowguard hguard he
      omega
    · rfl

lemma preprocessTensor_val (frame : FrameData) (inW inH c dstY dstX : ℕ)
    (hc : c < 3) (hY : dstY < preNewH frame inW inH)
    (hX : dstX < preNewW frame inW inH)
    (hOutY : dstY + prePadTop frame inW inH < inH)
    (hOutX : dstX + prePadLeft frame inW inH < inW) :
    (preprocessTensor frame inW inH)[c * inH * inW
        + ((dstY + prePadTop frame inW inH) * inW
          + (dstX + prePadLeft frame inW inH))]?
      = some (chanValue frame (preScale frame inW inH) c dstY dstX) := by
  unfold preprocessTensor
  apply foldl_range_getElem?_write _ dstY _ _ _ (3 * inH * inW)
  · exact hY
  · intro t dstY2
    split
    · exact foldl_length _ (fun t2 dstX2 => writePixel_length _ _ _ _ _ _ _ _ _) _ _
    · rfl
  · intro t dstY2 h2 hne
    split
    · rename_i hrowguard
      rw [foldl_range_getElem?_untouched]
      intro t2 dstX2 hX2
      apply writePixel_getElem?_ne
      intro hguard c2 hc2 he
      have hd := idx_decode hOutY hOutX hrowguard hguard he
      omega
    · rfl
  · intro t hlent
    rw [if_pos hOutY]
    apply foldl_range_getElem?_write _ dstX _ _ _ (3 * inH * inW)
    · exact hX
    · intro t2 x2
      exact writePixel_length _ _ _ _ _ _ _ _ _
    · intro t2 dstX2 hx2 hne
      apply writePixel_getElem?_ne
      intro hguard c2 hc2 he
      have hd := idx_decode hOutY hOutX hOutY hguard he
      omega
    · intro t2 hlen2
      exact writePixel_getElem?_eq _ _ _ _ _ _ _ _ _ _ hc hOutY hOutX hlen2
    · exact hlent
  · exact List.length_replicate _ _

lemma roundQ_nonneg {x : ℚ} (hx : 0 ≤ x) : 0 ≤ roundQ x := by
  unfold roundQ
  exact Int.floor_nonneg.mpr (by linarith)

lemma preScale_nonneg (frame : FrameData) (inW inH : ℕ) :
    0 ≤ preScale frame inW inH :=
  le_min (div_nonneg (Nat.cast_nonneg _) (Nat.cast_nonneg _))
    (div_nonneg (Nat.cast_nonneg _) (Nat.cast_nonneg _))

lemma roundQ_natCast (n : ℕ) : roundQ (n : ℚ) = n := by
  unfold roundQ
  rw [Int.floor_eq_iff]
  constructor
  · push_cast
    linarith
  · push_cast
    linarith

/-- C5: the embedded `DetectionEngine::preprocess` on a W-by-H frame
letterboxed into a T-by-T input returns scale `min(T/W, T/H)`, pads
`(T - round(W*scale))/2` and `(T - round(H*scale))/2`, a tensor of exactly
`3*T*T` entries whose entries outside the letterbox rectangle all equal
114/255, and whose entries inside the rectangle are the nearest-neighbour
source bytes in R, G, B channel-planar order normalized by 255; when
W = H = T the scale is 1 and both pads are 0. -/
theorem preprocess_spec (frame : FrameData) (T : ℕ)
    (_hW : 0 < frame.width) (_hH : 0 < frame.height) (hT : 0 < T) :
    (preprocess frame T T).1
        = min ((T : ℚ) / frame.width) ((T : ℚ) / frame.height)
    ∧ (preprocess frame T T).2.1
        = ((T : ℚ) - ((roundQ ((frame.width : ℚ) * (preprocess frame T T).1) : ℤ) : ℚ)) / 2
    ∧ (preprocess frame T T).2.2.1
        = ((T : ℚ) - ((roundQ ((frame.height : ℚ) * (preprocess frame T T).1) : ℤ) : ℚ)) / 2
    ∧ ((preprocess frame T T).2.2.2).length = 3 * T * T
    ∧ (∀ c y x, c < 3 → y < T → x < T →
        (y < prePadTop frame T T ∨ prePadTop frame T T + preNewH frame T T ≤ y
          ∨ x < prePadLeft frame T T ∨ prePadLeft frame T T + preNewW frame T T ≤ x) →
        ((preprocess frame T T).2.2.2).getD (c * T * T + (y * T + x)) 0 = 114/255)
    ∧ (∀ c dstY dstX, c < 3 → dstY < preNewH frame T T → dstX < preNewW frame T T →
        dstY + prePadTop frame T T < T → dstX + prePadLeft frame T T < T →
        ((preprocess frame T T).2.2.2).getD
            (c * T * T + ((dstY + prePadTop frame T T) * T
              + (dstX + prePadLeft frame T T))) 0
          = chanValue frame (preScale frame T T) c dstY dstX)
    ∧ (frame.width = T → frame.height = T →
        (preprocess frame T T).1 = 1 ∧ (preprocess frame T T).2.1 = 0
          ∧ (preprocess frame T T).2.2.1 = 0) := by
  refine ⟨rfl, ?_, ?_, preprocessTensor_length frame T T, ?_, ?_, ?_⟩
  · show prePadX frame T T = _
    unfold prePadX preNewW
    have hnn : 0 ≤ roundQ ((frame.width : ℚ) * preScale frame T T) :=
      roundQ_nonneg (mul_nonneg (Nat.cast_nonneg _) (preScale_nonneg frame T T))
    rw [show ((preprocess frame T T).1) = preScale frame T T from rfl]
    congr 2
    rw [← Int.toNat_of_nonneg hnn]
    push_cast
    rw [Int.toNat_of_nonneg hnn]
  · show prePadY frame T T = _
    unfold prePadY preNewH
    have hnn : 0 ≤ roundQ ((frame.height : ℚ) * preScale frame T T) :=
      roundQ_nonneg (mul_nonneg (Nat.cast_nonneg _) (preScale_nonneg frame T T))
    rw [show ((preprocess frame T T).1) = preScale frame T T from rfl]
    congr 2
    rw [← Int.toNat_of_nonneg hnn]
    push_cast
    rw [Int.toNat_of_nonneg hnn]
  · intro c y x hc hy hx hout
    show (preprocessTensor frame T T).getD _ 0 = _
    rw [List.getD_eq_getElem?_getD, preprocessTensor_pad frame T T c y x hc hy hx hout]
    rfl
  · intro c dstY dstX hc hY hX hOutY hOutX
    show (preprocessTensor frame T T).getD _ 0 = _
    rw [List.getD_eq_getElem?_getD,
      preprocessTensor_val frame T T c dstY dstX hc hY hX hOutY hOutX]
    rfl
  · intro hWT hHT
    have hTQ : (T : ℚ) ≠ 0 := Nat.cast_ne_zero.mpr hT.ne'
    have hscale : preScale frame T T = 1 := by
      unfold preScale
      rw [hWT, hHT, div_self hTQ, min_self]
    refine ⟨hscale, ?_, ?_⟩
    · show prePadX frame T T = 0
      unfold prePadX preNewW
      rw [hscale, hWT, mul_one, roundQ_natCast, Int.toNat_natCast, sub_self, zero_div]
    · show prePadY frame T T = 0
      unfold prePadY preNewH
      rw [hscale, hHT, mul_one, roundQ_natCast, Int.toNat_natCast, sub_self, zero_div]

/-- Witness for C5 on a concrete 2-by-4 frame letterboxed into 4-by-4:
scale 1, horizontal pad 1, tensor of 48 entries, a padding entry equal to
114/255, and the first written entry carrying the nearest-neighbour red
byte over 255. -/
theorem preprocess_spec_witness :
    (preprocess ⟨2, 4, 6, 0, fun n => n⟩ 4 4).1 = 1
    ∧ (preprocess ⟨2, 4, 6, 0, fun n => n⟩ 4 4).2.1 = 1
    ∧ ((preprocess ⟨2, 4, 6, 0, fun n => n⟩ 4 4).2.2.2).length = 48
    ∧ ((preprocess ⟨2, 4, 6, 0, fun n => n⟩ 4 4).2.2.2).getD 0 0 = 114/255
    ∧ ((preprocess ⟨2, 4, 6, 0, fun n => n⟩ 4 4).2.2.2).getD 1 0
        = chanValue ⟨2, 4, 6, 0, fun n => n⟩ 1 0 0 0
    ∧ chanValue ⟨2, 4, 6, 0, fun n => n⟩ 1 0 0 0 = 2/255 := by
  have h := preprocess_spec ⟨2, 4, 6, 0, fun n => n⟩ 4
    (by decide) (by decide) (by decide)
  have hscale : preScale ⟨2, 4, 6, 0, fun n => n⟩ 4 4 = 1 := by
    norm_num [preScale]
  have hnewW : preNewW ⟨2, 4, 6, 0, fun n => n⟩ 4 4 = 2 := by
    norm_num [preNewW, hscale, roundQ]
    decide
  have hnewH : preNewH ⟨2, 4, 6, 0, fun n => n⟩ 4 4 = 4 := by
    norm_num [preNewH, hscale, roundQ]
    decide
  have hpadL : prePadLeft ⟨2, 4, 6, 0, fun n => n⟩ 4 4 = 1 := by
    norm_num [prePadLeft, prePadX, hnewW, roundQ]
  have hpadT : prePadTop ⟨2, 4, 6, 0, fun n => n⟩ 4 4 = 0 := by
    norm_num [prePadTop, prePadY, hnewH, roundQ]
  refine ⟨?_, ?_, ?_, ?_, ?_, ?_⟩
  · rw [h.1]
    norm_num
  · rw [h.2.1]
    have : (preprocess ⟨2, 4, 6, 0, fun n => n⟩ 4 4).1
        = preScale ⟨2, 4, 6, 0, fun n => n⟩ 4 4 := rfl
    rw [this, hscale]
    norm_num [roundQ]
  · rw [h.2.2.2.1]
  · have hp := h.2.2.2.2.1 0 0 0 (by decide) (by decide) (by decide)
      (Or.inr (Or.inr (Or.inl (by rw [hpadL]; decide))))
    simpa using hp
  · have hv := h.2.2.2.2.2.1 0 0 0 (by decide) (by rw [hnewH]; decide)
      (by rw [hnewW]; decide) (by rw [hpadT]; decide) (by rw [hpadL]; decide)
    rw [hpadT, hpadL, hscale] at hv
    simpa using hv
  · norm_num [chanValue, srcIndex]

end HmsDetection


namespace HmsDetection

/-! ## CameraBuffer: per-camera ring buffer

Embedding of `CameraBuffer` (camera_buffer.h).  The C++ stores
`shared_ptr<FrameData>` slots, so a slot is modelled as `Option FrameData`
(initially null).  `push` writes at `head_` and advances it modulo the
capacity, saturating `count_` at the capacity; `getBuffer` reads `count_`
slots starting at `(head_ + capacity_ - count_) % capacity_`;
`getLatestFrame` reads slot `(head_ + capacity_ - 1) % capacity_`.  The
reader/writer lock is a no-op in this sequential model.
-/

structure CameraBuffer where
  capacity : ℕ
  buffer : List (Option FrameData)
  head : ℕ
  count : ℕ

/-- The freshly constructed buffer: `capacity` null slots. -/
def CameraBuffer.empty (c : ℕ) : CameraBuffer :=
  ⟨c, List.replicate c none, 0, 0⟩

/-- Embedding of `CameraBuffer::push`. -/
def CameraBuffer.push (b : CameraBuffer) (f : FrameData) : CameraBuffer :=
  ⟨b.capacity, b.buffer.set b.head (some f), (b.head + 1) % b.capacity,
    if b.count < b.capacity then b.count + 1 else b.count⟩

/-- Embedding of `CameraBuffer::getLatestFrame`. -/
def CameraBuffer.getLatestFrame (b : CameraBuffer) : Option FrameData :=
  if b.count = 0 then none
  else b.buffer.getD ((b.head + b.capacity - 1) % b.capacity) none

/-- Embedding of `CameraBuffer::getBuffer`: the `count` stored frames from
oldest to newest. -/
def CameraBuffer.getBuffer (b : CameraBuffer) : List (Option FrameData) :=
  (List.range b.count).map fun i =>
    b.buffer.getD (((b.head + b.capacity - b.count) % b.capacity + i) % b.capacity) none

/-- Embedding of `CameraBuffer::size`. -/
def CameraBuffer.size (b : CameraBuffer) : ℕ := b.count

/-- Push a whole list of frames in order. -/
def CameraBuffer.pushAll (b : CameraBuffer) (l : List FrameData) : CameraBuffer :=
  l.foldl CameraBuffer.push b

/-- The abstract content of the ring buffer: the suffix of the pushed
frames of length at most the capacity. -/
def absPush (c : ℕ) (l : List FrameData) (f : FrameData) : List FrameData :=
  if l.length < c then l ++ [f] else l.tail ++ [f]

/-- Concrete/abstract coupling invariant: `count` is the abstract length,
the abstract list is at most the capacity, and slot
`(head + capacity - count + i) % capacity` holds the i-th oldest frame. -/
def BufInv (b : CameraBuffer) (l : List FrameData) : Prop :=
  b.buffer.length = b.capacity
  ∧ b.head < b.capacity
  ∧ b.count = l.length
  ∧ l.length ≤ b.capacity
  ∧ ∀ i, i < l.length →
      b.buffer.getD ((b.head + b.capacity - l.length + i) % b.capacity) none
        = (l.map some).getD i none

end HmsDetection

namespace HmsDetection

lemma getD_set_ne (L : List (Option FrameData)) (i j : ℕ) (v : Option FrameData)
    (hne : i ≠ j) : (L.set i v).getD j none = L.getD j none := by
  rw [List.getD_eq_getElem?_getD, List.getElem?_set_ne hne,
    ← List.getD_eq_getElem?_getD]

lemma getD_set_self (L : List (Option FrameData)) (i : ℕ) (v : Option FrameData)
    (hi : i < L.length) : (L.set i v).getD i none = v := by
  rw [List.getD_eq_getElem?_getD, List.getElem?_set_self hi]
  rfl

lemma add_mod_ne_self {c head k : ℕ} (hhead : head < c) (hk0 : 0 < k)
    (hkc : k < c) : (head + k) % c ≠ head := by
  intro he
  have h2 : Nat.ModEq c head (head + k) := by
    show head % c = (head + k) % c
    rw [he, Nat.mod_eq_of_lt hhead]
  have h3 := (Nat.modEq_iff_dvd' (Nat.le_add_right head k)).mp h2
  rw [Nat.add_sub_cancel_left] at h3
  exact absurd (Nat.le_of_dvd hk0 h3) (not_le.mpr hkc)

lemma bufInv_empty (c : ℕ) (hc : 0 < c) : BufInv (CameraBuffer.empty c) [] := by
  refine ⟨List.length_replicate _ _, hc, rfl, by simp, ?_⟩
  intro i hi
  simp at hi

lemma bufInv_push (b : CameraBuffer) (l : List FrameData) (f : FrameData)
    (h : BufInv b l) : BufInv (b.push f) (absPush b.capacity l f) := by
  obtain ⟨h1, h2, h3, h4, h5⟩ := h
  have hc : 0 < b.capacity := by omega
  by_cases hlt : l.length < b.capacity
  · unfold BufInv CameraBuffer.push absPush
    simp only [if_pos hlt, List.length_set, List.length_append, List.length_cons,
      List.length_nil]
    refine ⟨h1, Nat.mod_lt _ hc, ?_, by omega, ?_⟩
    · rw [if_pos (by omega)]
      omega
    · intro i hi
      have hidx1 : (b.head + 1) % b.capacity + b.capacity - (l.length + 1) + i
          = (b.head + 1) % b.capacity + (b.capacity - (l.length + 1) + i) := by
        omega
      rw [hidx1, Nat.mod_add_mod]
      have hidx2 : b.head + 1 + (b.capacity - (l.length + 1) + i)
          = b.head + (b.capacity - l.length + i) := by
        omega
      rw [hidx2]
      rcases Nat.lt_or_ge i l.length with hil | hil
      · have hne : (b.head + (b.capacity - l.length + i)) % b.capacity ≠ b.head :=
          add_mod_ne_self h2 (by omega) (by omega)
        rw [getD_set_ne _ _ _ _ (Ne.symm hne)]
        have hf := h5 i hil
        have hidx3 : b.head + b.capacity - l.length + i
            = b.head + (b.capacity - l.length + i) := by
          omega
        rw [hidx3] at hf
        rw [hf, List.map_append, List.getD_eq_getElem?_getD, List.getD_eq_getElem?_getD,
          List.getElem?_append_left (by simpa using hil)]
      · have hieq : i = l.length := by omega
        subst hieq
        have hidx4 : b.capacity - l.length + l.length = b.capacity := by omega
        rw [hidx4, Nat.add_mod_right, Nat.mod_eq_of_lt h2,
          getD_set_self _ _ _ (by omega), List.map_append, List.getD_eq_getElem?_getD,
          List.getElem?_append_right (by simp), List.length_map]
        simp
  · have hleq : l.length = b.capacity := by omega
    have htl : l.tail.length + 1 = b.capacity := by
      simp only [List.length_tail]
      omega
    unfold BufInv CameraBuffer.push absPush
    simp only [if_neg hlt, List.length_set, List.length_append, List.length_cons,
      List.length_nil]
    refine ⟨h1, Nat.mod_lt _ hc, ?_, by omega, ?_⟩
    · rw [if_neg (by omega)]
      omega
    · intro i hi
      have hidx1 : (b.head + 1) % b.capacity + b.capacity - (l.tail.length + 1) + i
          = (b.head + 1) % b.capacity + (b.capacity - (l.tail.length + 1) + i) := by
        omega
      rw [hidx1, Nat.mod_add_mod]
      have hidx2 : b.head + 1 + (b.capacity - (l.tail.length + 1) + i)
          = b.head + (1 + i) := by
        omega
      rw [hidx2]
      rcases Nat.lt_or_ge i l.tail.length with hil | hil
      · have hne : (b.head + (1 + i)) % b.capacity ≠ b.head :=
          add_mod_ne_self h2 (by omega) (by omega)
        rw [getD_set_ne _ _ _ _ (Ne.symm hne)]
        have hf := h5 (i + 1) (by omega)
        have hidx4 : b.head + b.capacity - l.length + (i + 1)
            = b.head + (1 + i) := by
          omega
        rw [hidx4] at hf
        rw [hf, List.getD_eq_getElem?_getD, List.getD_eq_getElem?_getD,
          List.getElem?_map, List.getElem?_map,
          List.getElem?_append_left (by simpa using hil), List.getElem?_tail]
      · have hieq : i = l.tail.length := by omega
        subst hieq
        have hidx5 : b.head + (1 + l.tail.length) = b.head + b.capacity := by
          omega
        rw [hidx5, Nat.add_mod_right, Nat.mod_eq_of_lt h2,
          getD_set_self _ _ _ (by omega), List.map_append, List.getD_eq_getElem?_getD,
          List.getElem?_append_right (by simp), List.length_map]
        simp

end HmsDetection

namespace HmsDetection

lemma capacity_push (b : CameraBuffer) (f : FrameData) :
    (b.push f).capacity = b.capacity := rfl

lemma bufInv_pushAll (L : List FrameData) :
    ∀ (b : CameraBuffer) (al : List FrameData), BufInv b al →
      BufInv (b.pushAll L) (L.foldl (absPush b.capacity) al) := by
  induction L with
  | nil => intro b al h; exact h
  | cons f L ih =>
    intro b al h
    have hstep := bufInv_push b al f h
    have := ih (b.push f) (absPush b.capacity al f) hstep
    exact this

lemma absPush_foldl (c : ℕ) (hc : 0 < c) :
    ∀ (L : List FrameData) (al : List FrameData), al.length ≤ c →
      L.foldl (absPush c) al = (al ++ L).drop (al.length + L.length - c) := by
  intro L
  induction L with
  | nil =>
    intro al hal
    simp only [List.foldl_nil, List.append_nil, List.length_nil, Nat.add_zero]
    rw [show al.length - c = 0 by omega, List.drop_zero]
  | cons f L ih =>
    intro al hal
    simp only [List.foldl_cons]
    by_cases hlt : al.length < c
    · rw [show absPush c al f = al ++ [f] from by rw [absPush, if_pos hlt]]
      rw [ih (al ++ [f]) (by simp; omega)]
      simp only [List.length_append, List.length_cons, List.length_nil,
        List.append_assoc, List.singleton_append]
      congr 1
      omega
    · have hnil : al ≠ [] := by
        intro he
        rw [he] at hlt
        simp at hlt
        omega
      rw [show absPush c al f = al.tail ++ [f] from by rw [absPush, if_neg hlt]]
      rw [ih (al.tail ++ [f]) (by simp [List.length_tail]; omega)]
      obtain ⟨a0, al2, rfl⟩ := List.exists_cons_of_ne_nil hnil
      simp only [List.length_cons] at hal hlt
      simp only [List.tail_cons, List.length_append, List.length_cons,
        List.length_nil, List.append_assoc, List.singleton_append,
        List.cons_append]
      rw [show al2.length + 1 + (L.length + 1) - c
        = (al2.length + 1 + L.length - c) + 1 from by omega]
      rw [List.drop_succ_cons]
      simp

end HmsDetection

namespace HmsDetection

lemma getBuffer_of_inv (b : CameraBuffer) (l : List FrameData)
    (h : BufInv b l) : b.getBuffer = l.map some := by
  obtain ⟨h1, h2, h3, h4, h5⟩ := h
  apply List.ext_getElem?
  intro n
  unfold CameraBuffer.getBuffer
  by_cases hn : n < b.count
  · have hn2 : n < l.length := by omega
    rw [List.getElem?_map, List.getElem?_range hn]
    simp only [Option.map_some']
    rw [h3, Nat.mod_add_mod]
    have := h5 n hn2
    rw [this, List.getD_eq_getElem?_getD, List.getElem?_map,
      List.getElem?_eq_getElem hn2]
    simp
  · rw [List.getElem?_map,
      List.getElem?_eq_none (by simp only [List.length_range]; omega)]
    rw [List.getElem?_map, List.getElem?_eq_none (by omega)]
    rfl

lemma getLatestFrame_of_inv (b : CameraBuffer) (l : List FrameData)
    (h : BufInv b l) : b.getLatestFrame = l.getLast? := by
  obtain ⟨h1, h2, h3, h4, h5⟩ := h
  unfold CameraBuffer.getLatestFrame
  by_cases hl : l.length = 0
  · rw [if_pos (by omega)]
    rw [List.eq_nil_of_length_eq_zero hl]
    rfl
  · rw [if_neg (by omega)]
    have hlast := h5 (l.length - 1) (by omega)
    rw [show b.head + b.capacity - l.length + (l.length - 1)
      = b.head + b.capacity - 1 from by omega] at hlast
    rw [hlast]
    rw [List.getLast?_eq_getElem?, List.getD_eq_getElem?_getD,
      List.getElem?_map, List.getElem?_eq_getElem (by omega : l.length - 1 < l.length)]
    simp

end HmsDetection

namespace HmsDetection

lemma getLast?_drop_eq {α : Type} (L : List α) (n : ℕ) (h : n < L.length) :
    (L.drop n).getLast? = L.getLast? := by
  rw [List.getLast?_eq_getElem?, List.getLast?_eq_getElem?, List.length_drop,
    List.getElem?_drop]
  congr 1
  omega

/-- C4: pushing N frames with strictly increasing sequence numbers into an
empty ring buffer of capacity C ≥ 1 leaves size min(N, C); the snapshot is
exactly the suffix of the last min(N, C) pushed frames oldest-to-newest
(so a full push evicts the oldest), its sequence numbers strictly increase
and end at the most recently pushed frame, and the latest-frame query
returns the most recent frame, or nothing when no frame was pushed. -/
theorem cameraBuffer_spec (C : ℕ) (hC : 0 < C) (L : List FrameData)
    (hinc : List.Chain' (fun a b => a.frame_number < b.frame_number) L) :
    ((CameraBuffer.empty C).pushAll L).size = min L.length C
    ∧ ((CameraBuffer.empty C).pushAll L).getBuffer
        = (L.drop (L.length - C)).map some
    ∧ List.Chain' (fun a b => a.frame_number < b.frame_number)
        (((CameraBuffer.empty C).pushAll L).getBuffer.reduceOption)
    ∧ ((CameraBuffer.empty C).pushAll L).getBuffer.getLast?
        = (L.getLast?).map some
    ∧ ((CameraBuffer.empty C).pushAll L).getLatestFrame = L.getLast? := by
  have hinv0 := bufInv_pushAll L (CameraBuffer.empty C) [] (bufInv_empty C hC)
  have habs : L.foldl (absPush (CameraBuffer.empty C).capacity) []
      = L.drop (L.length - C) := by
    have h := absPush_foldl C hC L [] (by simp)
    simpa using h
  rw [habs] at hinv0
  have hbuf := getBuffer_of_inv _ _ hinv0
  have hlat := getLatestFrame_of_inv _ _ hinv0
  have hlen : (L.drop (L.length - C)).length = min L.length C := by
    rw [List.length_drop]
    omega
  have hlast : (L.drop (L.length - C)).getLast? = L.getLast? := by
    rcases List.eq_nil_or_concat L with rfl | ⟨L2, a, rfl⟩
    · simp
    · exact getLast?_drop_eq _ _ (by simp; omega)
  refine ⟨?_, hbuf, ?_, ?_, ?_⟩
  · have := hinv0.2.2.1
    unfold CameraBuffer.size
    omega
  · rw [hbuf]
    have hred : ∀ (l : List FrameData), (l.map some).reduceOption = l := by
      intro l
      induction l with
      | nil => rfl
      | cons a t ih =>
        rw [List.map_cons, List.reduceOption_cons_of_some, ih]
    rw [hred]
    haveI : IsTrans FrameData (fun a b => a.frame_number < b.frame_number) :=
      ⟨fun a b c h1 h2 => lt_trans h1 h2⟩
    rw [List.chain'_iff_pairwise] at hinc ⊢
    exact hinc.sublist (List.drop_sublist _ _)
  · rw [hbuf, List.getLast?_map, hlast]
  · rw [hlat, hlast]

end HmsDetection

namespace HmsDetection

/-- Witness for C4: pushing three concrete frames with sequence numbers
1, 2, 3 into a capacity-2 buffer keeps frames 2 and 3 with frame 3 latest. -/
theorem cameraBuffer_spec_witness :
    ((CameraBuffer.empty 2).pushAll
        [⟨1, 1, 3, 1, fun _ => 0⟩, ⟨1, 1, 3, 2, fun _ => 0⟩,
          ⟨1, 1, 3, 3, fun _ => 0⟩]).size = 2
    ∧ (((CameraBuffer.empty 2).pushAll
        [⟨1, 1, 3, 1, fun _ => 0⟩, ⟨1, 1, 3, 2, fun _ => 0⟩,
          ⟨1, 1, 3, 3, fun _ => 0⟩]).getBuffer.map
        (fun o => o.map FrameData.frame_number)) = [some 2, some 3]
    ∧ (((CameraBuffer.empty 2).pushAll
        [⟨1, 1, 3, 1, fun _ => 0⟩, ⟨1, 1, 3, 2, fun _ => 0⟩,
          ⟨1, 1, 3, 3, fun _ => 0⟩]).getLatestFrame.map
        FrameData.frame_number) = some 3 := by
  have h := cameraBuffer_spec 2 (by norm_num)
    [⟨1, 1, 3, 1, fun _ => 0⟩, ⟨1, 1, 3, 2, fun _ => 0⟩,
      ⟨1, 1, 3, 3, fun _ => 0⟩]
    (by simp [List.chain'_cons])
  refine ⟨?_, ?_, ?_⟩
  · rw [h.1]
    simp
  · rw [h.2.1]
    simp
  · rw [h.2.2.2.2]
    simp

end HmsDetection

namespace HmsDetection

/-! ## FramePool: recyclable frame pool

Embedding of `FramePool` (frame_data.h).  The pool state is the free list
(a queue: `acquire` pops the front, recycling pushes to the back) plus the
multiset of outstanding handles, modelled as a list indexed by position so
that dropping a handle needs no decidable equality on frames.  The
`shared_ptr` custom deleter is the `dropStep` transition: it zeroes
`frame_number` and appends the frame to the free list, exactly
`FramePool::recycle`.  The mutex is a no-op in this sequential model, and
`acquire` is a total function (the C++ contract: it never blocks, returning
`nullptr` at once when the free list is empty).
-/

instance : Inhabited FrameData := ⟨⟨0, 0, 0, 0, fun _ => 0⟩⟩

structure PoolState where
  capacity : ℕ
  free_list : List FrameData
  held : List FrameData

namespace FramePool

/-- The freshly constructed pool: `capacity` default frames on the free
list, no outstanding handles. -/
def init (c : ℕ) : PoolState :=
  ⟨c, List.replicate c ⟨0, 0, 0, 0, fun _ => 0⟩, []⟩

/-- Embedding of `FramePool::available`. -/
def available (s : PoolState) : ℕ := s.free_list.length

/-- Embedding of `FramePool::in_use` (`capacity_ - free_list_.size()`). -/
def in_use (s : PoolState) : ℕ := s.capacity - s.free_list.length

/-- Embedding of `FramePool::acquire`: `nullptr` on an empty free list,
else pop the front and hand it out. -/
def acquire (s : PoolState) : Option FrameData × PoolState :=
  match s.free_list with
  | [] => (none, s)
  | f :: rest => (some f, ⟨s.capacity, rest, f :: s.held⟩)

/-- Embedding of the handle drop (`FramePool::recycle` via the custom
deleter): zero the frame number of the i-th outstanding handle and push it
to the back of the free list. -/
def recycle (s : PoolState) (i : ℕ) : PoolState :=
  ⟨s.capacity,
    s.free_list ++ [{ s.held.getD i default with frame_number := 0 }],
    s.held.eraseIdx i⟩

end FramePool

/-- States reachable from a fresh pool by any interleaving of acquires and
handle drops. -/
inductive PoolReach (c : ℕ) : PoolState → Prop
  | init : PoolReach c (FramePool.init c)
  | acquireStep (s : PoolState) : PoolReach c s → PoolReach c (FramePool.acquire s).2
  | dropStep (s : PoolState) (i : ℕ) (h : i < s.held.length) :
      PoolReach c s → PoolReach c (FramePool.recycle s i)

lemma poolReach_counts {c : ℕ} {s : PoolState} (h : PoolReach c s) :
    s.capacity = c ∧ FramePool.available s + s.held.length = c := by
  induction h with
  | init =>
    constructor
    · rfl
    · simp [FramePool.init, FramePool.available]
  | acquireStep s _ ih =>
    unfold FramePool.acquire
    rcases hfl : s.free_list with _ | ⟨f, rest⟩
    · simpa using ih
    · simp only [FramePool.available] at ih ⊢
      rw [hfl] at ih
      simp only [List.length_cons] at ih
      refine ⟨ih.1, ?_⟩
      simp only [List.length_cons]
      omega
  | dropStep s i hi _ ih =>
    unfold FramePool.recycle
    simp only [FramePool.available] at ih ⊢
    simp only [List.length_append, List.length_cons, List.length_nil,
      List.length_eraseIdx, if_pos hi]
    refine ⟨ih.1, ?_⟩
    omega

/-- C3: for every reachable pool state, `available + in_use = capacity`;
dropping the handle just acquired restores `available` (and `in_use`) to
their prior values; `acquire` on an empty free list returns null at once
and leaves the state unchanged; and a recycled frame re-enters the free
list with `frame_number` reset to 0. -/
theorem framePool_spec :
    (∀ (c : ℕ) (s : PoolState), PoolReach c s →
      FramePool.available s + FramePool.in_use s = s.capacity
        ∧ s.capacity = c)
    ∧ (∀ s : PoolState, 0 < FramePool.available s →
      FramePool.available (FramePool.recycle (FramePool.acquire s).2 0)
          = FramePool.available s
        ∧ FramePool.in_use (FramePool.recycle (FramePool.acquire s).2 0)
          = FramePool.in_use s)
    ∧ (∀ s : PoolState, FramePool.available s = 0 →
      FramePool.acquire s = (none, s))
    ∧ (∀ (s : PoolState) (i : ℕ), i < s.held.length →
      ((FramePool.recycle s i).free_list.getLast?).map FrameData.frame_number
        = some 0) := by
  refine ⟨?_, ?_, ?_, ?_⟩
  · intro c s h
    have hc := poolReach_counts h
    unfold FramePool.available FramePool.in_use at *
    refine ⟨?_, hc.1⟩
    omega
  · intro s h
    obtain ⟨cap, fl, held⟩ := s
    unfold FramePool.available FramePool.in_use at *
    simp only at h ⊢
    rcases fl with _ | ⟨f, rest⟩
    · simp at h
    · simp [FramePool.acquire, FramePool.recycle]
  · intro s h
    obtain ⟨cap, fl, held⟩ := s
    unfold FramePool.available at h
    simp only at h
    rcases fl with _ | ⟨f, rest⟩
    · rfl
    · simp at h
  · intro s i hi
    simp only [FramePool.recycle]
    rw [List.getLast?_append]
    rfl

/-- Witness for C3 on a concrete capacity-2 pool: counts after one
acquire, restoration after the matching drop, null acquire on the
exhausted pool, and the zeroed frame number of a recycled frame. -/
theorem framePool_spec_witness :
    FramePool.available (FramePool.acquire (FramePool.init 2)).2
        + FramePool.in_use (FramePool.acquire (FramePool.init 2)).2 = 2
    ∧ FramePool.available
        (FramePool.recycle (FramePool.acquire (FramePool.init 2)).2 0) = 2
    ∧ FramePool.acquire
          (FramePool.acquire (FramePool.acquire (FramePool.init 2)).2).2
        = (none, (FramePool.acquire (FramePool.acquire (FramePool.init 2)).2).2)
    ∧ (((FramePool.recycle (FramePool.acquire (FramePool.init 2)).2
          0).free_list.getLast?).map FrameData.frame_number) = some 0 := by
  have h1 := (framePool_spec.1 2 (FramePool.acquire (FramePool.init 2)).2
    (PoolReach.acquireStep _ (PoolReach.init))).1
  have h2 := (framePool_spec.2.1 (FramePool.init 2) (by
    simp [FramePool.init, FramePool.available])).1
  have h3 := framePool_spec.2.2.1
    (FramePool.acquire (FramePool.acquire (FramePool.init 2)).2).2 (by rfl)
  have h4 := framePool_spec.2.2.2 (FramePool.acquire (FramePool.init 2)).2 0 (by
    simp [FramePool.init, FramePool.acquire])
  refine ⟨?_, ?_, h3, h4⟩
  · rw [h1]
    have := (framePool_spec.1 2 (FramePool.acquire (FramePool.init 2)).2
      (PoolReach.acquireStep _ (PoolReach.init))).2
    rw [this]
  · rw [h2]
    rfl

end HmsDetection

namespace HmsDetection

/-! ## EventRecorder: presentation timestamps and max duration

Embedding of `EventRecorder::writeFrame` and
`EventRecorder::isMaxDurationReached` (event_recorder.cpp).  A successful
`start` sets `fps_ = fps > 0 ? fps : 10`, `frames_written_ = 0`,
`pts_ = 0` and `recording_ = true`; the state below carries exactly those
fields.  The colour conversion, encoder and muxer (whose failures would
surface as libav errors) are modelled as always accepting the frame, so a
write that passes the `recording_` and max-duration guards assigns
`pts_++` and increments `frames_written_`.  `writeFrame` returns the
success flag, the pts assigned to the frame (none when refused), and the
next state. -/

structure RecState where
  recording : Bool
  fps : ℕ
  frames_written : ℕ
  pts : ℕ
deriving DecidableEq

namespace EventRecorder

/-- Hard-coded `MAX_DURATION_SECONDS` from event_recorder.h. -/
def MAX_DURATION_SECONDS : ℕ := 30

/-- The recorder state right after a successful `start(..., fps, ...)`. -/
def startState (fps : ℕ) : RecState :=
  ⟨true, if 0 < fps then fps else 10, 0, 0⟩

/-- Embedding of `EventRecorder::isMaxDurationReached`. -/
def isMaxDurationReached (s : RecState) : Bool :=
  s.fps * MAX_DURATION_SECONDS ≤ s.frames_written

/-- Embedding of `EventRecorder::writeFrame` on the modelled state. -/
def writeFrame (s : RecState) : Bool × Option ℕ × RecState :=
  if s.recording = false then (false, none, s)
  else if isMaxDurationReached s then (false, none, s)
  else (true, some s.pts,
    ⟨s.recording, s.fps, s.frames_written + 1, s.pts + 1⟩)

/-- Iterate `writeFrame` n times, collecting the assigned pts values. -/
def writeN (s : RecState) : ℕ → List (Option ℕ) × RecState
  | 0 => ([], s)
  | n + 1 =>
    ((writeFrame s).2.1 :: (writeN (writeFrame s).2.2 n).1,
      (writeN (writeFrame s).2.2 n).2)

end EventRecorder

lemma writeN_succ (s : RecState) (n : ℕ) :
    EventRecorder.writeN s (n + 1)
      = ((EventRecorder.writeFrame s).2.1
          :: (EventRecorder.writeN (EventRecorder.writeFrame s).2.2 n).1,
        (EventRecorder.writeN (EventRecorder.writeFrame s).2.2 n).2) := rfl

lemma writeN_char (F : ℕ) :
    ∀ (n k : ℕ),
      EventRecorder.writeN ⟨true, F, k, k⟩ n
        = ((List.range' k (min n (F * EventRecorder.MAX_DURATION_SECONDS - k))).map some
            ++ List.replicate (n - (F * EventRecorder.MAX_DURATION_SECONDS - k)) none,
          ⟨true, F, k + min n (F * EventRecorder.MAX_DURATION_SECONDS - k),
            k + min n (F * EventRecorder.MAX_DURATION_SECONDS - k)⟩) := by
  intro n
  induction n with
  | zero =>
    intro k
    simp [EventRecorder.writeN]
  | succ n ih =>
    intro k
    set limit := F * EventRecorder.MAX_DURATION_SECONDS with hlimit
    rcases Nat.lt_or_ge k limit with hk | hk
    · have hwf : EventRecorder.writeFrame ⟨true, F, k, k⟩
          = (true, some k, ⟨true, F, k + 1, k + 1⟩) := by
        unfold EventRecorder.writeFrame EventRecorder.isMaxDurationReached
        rw [if_neg (by simp), if_neg (by simp; omega)]
      rw [writeN_succ, hwf]
      simp only
      rw [ih (k + 1)]
      simp only
      have hmin : min (n + 1) (limit - k) = min n (limit - (k + 1)) + 1 := by
        omega
      have hrep : n - (limit - (k + 1)) = n + 1 - (limit - k) := by
        omega
      rw [hmin, hrep]
      have hrange : List.range' k (min n (limit - (k + 1)) + 1)
          = k :: List.range' (k + 1) (min n (limit - (k + 1))) := by
        rw [List.range'_succ]
      rw [hrange]
      simp only [List.map_cons, List.cons_append]
      rw [show k + 1 + (n ⊓ (limit - (k + 1)))
        = k + (n ⊓ (limit - (k + 1)) + 1) from by omega]
    · have hwf : EventRecorder.writeFrame ⟨true, F, k, k⟩
          = (false, none, ⟨true, F, k, k⟩) := by
        unfold EventRecorder.writeFrame EventRecorder.isMaxDurationReached
        rw [if_neg (by simp), if_pos (by simp; omega)]
      rw [writeN_succ, hwf]
      simp only
      rw [ih k]
      simp only
      have hmin0 : limit - k = 0 := by omega
      rw [hmin0]
      simp
      rw [List.replicate_succ]

end HmsDetection

namespace HmsDetection

/-- C8: after a successful start at a positive fps, the n writes assign
pts 0, 1, 2, ... with no gaps to the successful frames — exactly the first
min(n, fps*30) calls — and every call made once frames_written has reached
fps * 30 (the 30-second cap) is refused, writes nothing, and leaves the
state (in particular the frame count) unchanged. -/
theorem eventRecorder_spec (fps n : ℕ) (hfps : 0 < fps) :
    (EventRecorder.writeN (EventRecorder.startState fps) n).1
        = (List.range (min n (fps * 30))).map some
          ++ List.replicate (n - fps * 30) none
    ∧ (EventRecorder.writeN (EventRecorder.startState fps) n).2.frames_written
        = min n (fps * 30)
    ∧ (EventRecorder.writeN (EventRecorder.startState fps) n).2.pts
        = min n (fps * 30)
    ∧ (fps * 30 ≤ n →
        EventRecorder.writeFrame
            (EventRecorder.writeN (EventRecorder.startState fps) n).2
          = (false, none,
            (EventRecorder.writeN (EventRecorder.startState fps) n).2))
    ∧ (∀ s : RecState, s.fps * 30 ≤ s.frames_written →
        EventRecorder.writeFrame s = (false, none, s)) := by
  have hrefuse : ∀ s : RecState, s.fps * 30 ≤ s.frames_written →
      EventRecorder.writeFrame s = (false, none, s) := by
    intro s hs
    unfold EventRecorder.writeFrame EventRecorder.isMaxDurationReached
      EventRecorder.MAX_DURATION_SECONDS
    by_cases hr : s.recording = false
    · rw [if_pos hr]
    · rw [if_neg hr, if_pos (by simp; omega)]
  have hstart : EventRecorder.startState fps = ⟨true, fps, 0, 0⟩ := by
    unfold EventRecorder.startState
    rw [if_pos hfps]
  have hchar := writeN_char fps n 0
  rw [hstart, hchar]
  have hlim : fps * EventRecorder.MAX_DURATION_SECONDS = fps * 30 := rfl
  simp only [hlim, Nat.sub_zero, Nat.zero_add]
  refine ⟨?_, ?_, ?_, ?_, hrefuse⟩
  · rw [← List.range_eq_range']
  · trivial
  · trivial
  · intro hn
    apply hrefuse
    simp
    omega

/-- Witness for C8 at fps 1 and 31 calls: pts 0..29 are assigned, the 31st
call is refused, 30 frames stand written, and a full recorder state refuses
a write unchanged. -/
theorem eventRecorder_spec_witness :
    (EventRecorder.writeN (EventRecorder.startState 1) 31).1
        = (List.range 30).map some ++ [none]
    ∧ (EventRecorder.writeN (EventRecorder.startState 1) 31).2.frames_written
        = 30
    ∧ EventRecorder.writeFrame
          (EventRecorder.writeN (EventRecorder.startState 1) 31).2
        = (false, none, (EventRecorder.writeN (EventRecorder.startState 1) 31).2)
    ∧ EventRecorder.writeFrame ⟨true, 1, 30, 30⟩
        = (false, none, ⟨true, 1, 30, 30⟩) := by
  have h := eventRecorder_spec 1 31 (by decide)
  refine ⟨?_, ?_, ?_, ?_⟩
  · rw [h.1]
    rfl
  · rw [h.2.1]
    decide
  · exact h.2.2.2.1 (by decide)
  · exact h.2.2.2.2 ⟨true, 1, 30, 30⟩ (by decide)

end HmsDetection

namespace HmsDetection

/-! ## MqttClient: wildcard topic matching and dispatch

Embedding of `MqttClient::topicMatches` and `MqttClient::message_arrived`
(mqtt_client.cpp).  C++ strings are modelled as `List Char`.  `cppSplit`
renders the `std::getline(iss, part, slash)` loop: it emits the characters
read before each delimiter and stops at end of input, so a trailing
delimiter produces no trailing empty segment and the empty string produces
no segments.  `matchSegs` renders the index loop over the split segments:
one topic segment is consumed per iteration; a `#` pattern segment returns
true (only reachable while a topic segment remains), `+` consumes one
pattern segment, a literal must equal the topic segment, and at topic end
the pattern must be exhausted.  Callbacks are modelled by numeric
identifiers; `subscriptions_` is a `std::map` over the pattern strings,
modelled as an association list kept sorted by `mapInsert`
(`subscriptions_[topic] = callback`), and `message_arrived` invokes the
callback of the first pattern in iteration order that matches, then
returns. -/

/-- The `std::getline` splitting loop of `MqttClient::topicMatches`:
accumulate until a delimiter, emit, continue; at end of input emit the
final accumulator, except that there is no final read after a trailing
delimiter. -/
def cppSplitGo : List Char → List Char → List (List Char)
  | [], acc => [acc.reverse]
  | c :: cs, acc =>
    if c = '/' then
      acc.reverse :: (match cs with
        | [] => []
        | _ => cppSplitGo cs [])
    else cppSplitGo cs (c :: acc)

/-- Split a topic or pattern into segments; the empty string yields no
segments (the `while (std::getline(...))` loop body never runs). -/
def cppSplit : List Char → List (List Char)
  | [] => []
  | s => cppSplitGo s []

/-- The segment-matching loop of `MqttClient::topicMatches`. -/
def matchSegs : List (List Char) → List (List Char) → Bool
  | pat, [] => pat.isEmpty
  | [], _ :: _ => false
  | p :: ps, t :: ts =>
    if p = ['#'] then true
    else if p = ['+'] then matchSegs ps ts
    else if p = t then matchSegs ps ts
    else false

/-- Embedding of `MqttClient::topicMatches`. -/
def topicMatches (pattern topic : List Char) : Bool :=
  matchSegs (cppSplit pattern) (cppSplit topic)

/-- Lexicographic comparison of `std::string` keys (`operator<`), used by
the `std::map` holding the subscriptions. -/
def strLt : List Char → List Char → Bool
  | [], [] => false
  | [], _ :: _ => true
  | _ :: _, [] => false
  | a :: as, b :: bs =>
    if a < b then true
    else if b < a then false
    else strLt as bs

/-- Ordered-map insertion (`subscriptions_[pattern] = callback`): keys kept
sorted, an existing key is overwritten. -/
def mapInsert (k : List Char) (v : ℕ) : List (List Char × ℕ) → List (List Char × ℕ)
  | [] => [(k, v)]
  | (k2, v2) :: rest =>
    if strLt k k2 then (k, v) :: (k2, v2) :: rest
    else if k = k2 then (k, v) :: rest
    else (k2, v2) :: mapInsert k v rest

/-- Embedding of the dispatch loop of `MqttClient::message_arrived`: the
callback of the first matching pattern in map iteration order is invoked
(`return; // first match wins`); none when nothing matches. -/
def message_arrived (subs : List (List Char × ℕ)) (topic : List Char) : Option ℕ :=
  (subs.find? fun e => topicMatches e.1 topic).map fun e => e.2

end HmsDetection

namespace HmsDetection

/-- C2, counterexample: the code does not let `#` match zero remaining
segments — the pattern `a/#` fails to match the topic `a`, contradicting
the claim's example list. -/
theorem topicMatches_counterexample :
    topicMatches ['a', '/', '#'] ['a'] = false := by decide

/-- C2 as amended: `#` matches one or more remaining segments (a pattern
`a/#` matches `a/b` and `a/b/c` but not `a` itself), `+` matches exactly
one segment, a literal segment matches only itself, and a pattern segment
is required for every topic segment with the pattern exhausted at topic
end. -/
theorem topicMatches_amended :
    (∀ (ps ts : List (List Char)) (t : List Char),
      matchSegs (['#'] :: ps) (t :: ts) = true)
    ∧ (∀ ps : List (List Char), matchSegs (['#'] :: ps) [] = false)
    ∧ (∀ (ps ts : List (List Char)) (t : List Char),
      matchSegs (['+'] :: ps) (t :: ts) = matchSegs ps ts)
    ∧ (∀ ps : List (List Char), matchSegs (['+'] :: ps) [] = false)
    ∧ (∀ (p : List Char) (ps ts : List (List Char)) (t : List Char),
      p ≠ ['#'] → p ≠ ['+'] →
      matchSegs (p :: ps) (t :: ts) = (p == t && matchSegs ps ts))
    ∧ topicMatches ['a', '/', '#'] ['a', '/', 'b'] = true
    ∧ topicMatches ['a', '/', '#'] ['a', '/', 'b', '/', 'c'] = true
    ∧ topicMatches ['a', '/', '#'] ['a'] = false
    ∧ topicMatches ['a', '/', '+'] ['a', '/', 'b'] = true
    ∧ topicMatches ['a', '/', '+'] ['a'] = false
    ∧ topicMatches ['a', '/', '+'] ['a', '/', 'b', '/', 'c'] = false := by
  refine ⟨?_, ?_, ?_, ?_, ?_, by decide, by decide, by decide, by decide,
    by decide, by decide⟩
  · intro ps ts t
    simp [matchSegs]
  · intro ps
    rfl
  · intro ps ts t
    rw [matchSegs]
    rw [if_neg (by decide), if_pos rfl]
  · intro ps
    rfl
  · intro p ps ts t hp1 hp2
    rw [matchSegs, if_neg hp1, if_neg hp2]
    by_cases hpt : p = t
    · rw [if_pos hpt]
      simp [hpt]
    · rw [if_neg hpt]
      simp [hpt]

/-- Witness for C2's amended literal rule at a concrete segment, with the
right side evaluated. -/
theorem topicMatches_amended_witness :
    matchSegs [['x']] [['x']] = (['x'] == ['x'] && matchSegs [] [])
    ∧ (['x'] == ['x'] && matchSegs [] []) = true := by
  constructor
  · exact topicMatches_amended.2.2.2.2.1 ['x'] [] [] ['x'] (by decide) (by decide)
  · decide

end HmsDetection

namespace HmsDetection

lemma strLt_total : ∀ a b : List Char, strLt a b = false → a ≠ b →
    strLt b a = true := by
  intro a
  induction a with
  | nil =>
    intro b hab hne
    cases b with
    | nil => exact absurd rfl hne
    | cons c cs => simp [strLt] at hab
  | cons x xs ih =>
    intro b hab hne
    cases b with
    | nil => rfl
    | cons y ys =>
      rw [strLt] at hab ⊢
      by_cases hxy : x < y
      · rw [if_pos hxy] at hab
        exact absurd hab (by simp)
      · rw [if_neg hxy] at hab
        by_cases hyx : y < x
        · rw [if_pos hyx]
        · rw [if_neg hyx] at hab
          have hxy2 : x = y := le_antisymm (not_lt.mp hyx) (not_lt.mp hxy)
          rw [if_neg (by rw [hxy2]; exact lt_irrefl y),
            if_neg (by rw [hxy2]; exact lt_irrefl y)]
          exact ih ys hab (by
            intro he
            exact hne (by rw [hxy2, he]))

lemma strLt_trans : ∀ a b c : List Char, strLt a b = true → strLt b c = true →
    strLt a c = true := by
  intro a
  induction a with
  | nil =>
    intro b c hab hbc
    cases b with
    | nil => simp [strLt] at hab
    | cons y ys =>
      cases c with
      | nil => simp [strLt] at hbc
      | cons z zs => rfl
  | cons x xs ih =>
    intro b c hab hbc
    cases b with
    | nil => simp [strLt] at hab
    | cons y ys =>
      cases c with
      | nil => simp [strLt] at hbc
      | cons z zs =>
        rw [strLt] at hab hbc ⊢
        by_cases hxy : x < y
        · by_cases hyz : y < z
          · rw [if_pos (lt_trans hxy hyz)]
          · rw [if_neg hyz] at hbc
            by_cases hzy : z < y
            · rw [if_pos hzy] at hbc
              exact absurd hbc (by simp)
            · have : y = z := le_antisymm (not_lt.mp hzy) (not_lt.mp hyz)
              rw [if_pos (this ▸ hxy)]
        · rw [if_neg hxy] at hab
          by_cases hyx : y < x
          · rw [if_pos hyx] at hab
            exact absurd hab (by simp)
          · rw [if_neg hyx] at hab
            have hxey : x = y := le_antisymm (not_lt.mp hyx) (not_lt.mp hxy)
            by_cases hyz : y < z
            · rw [if_pos (hxey ▸ hyz)]
            · rw [if_neg hyz] at hbc
              by_cases hzy : z < y
              · rw [if_pos hzy] at hbc
                exact absurd hbc (by simp)
              · rw [if_neg hzy] at hbc
                have hyez : y = z := le_antisymm (not_lt.mp hzy) (not_lt.mp hyz)
                rw [if_neg (by rw [hxey, hyez]; exact lt_irrefl z),
                  if_neg (by rw [hxey, hyez]; exact lt_irrefl z)]
                exact ih ys zs hab hbc

lemma mapInsert_mem : ∀ (subs : List (List Char × ℕ)) (k : List Char) (v : ℕ)
    (x : List Char × ℕ), x ∈ mapInsert k v subs → x = (k, v) ∨ x ∈ subs := by
  intro subs
  induction subs with
  | nil =>
    intro k v x hx
    simp [mapInsert] at hx
    exact Or.inl hx
  | cons e rest ih =>
    intro k v x hx
    obtain ⟨k2, v2⟩ := e
    rw [mapInsert] at hx
    by_cases h1 : strLt k k2
    · rw [if_pos h1] at hx
      rcases List.mem_cons.mp hx with h | h
      · exact Or.inl h
      · exact Or.inr h
    · rw [if_neg h1] at hx
      by_cases h2 : k = k2
      · rw [if_pos h2] at hx
        rcases List.mem_cons.mp hx with h | h
        · exact Or.inl h
        · exact Or.inr (List.mem_cons_of_mem _ h)
      · rw [if_neg h2] at hx
        rcases List.mem_cons.mp hx with h | h
        · rw [h]
          exact Or.inr (List.mem_cons_self _ _)
        · rcases ih k v x h with h3 | h3
          · exact Or.inl h3
          · exact Or.inr (List.mem_cons_of_mem _ h3)

lemma mapInsert_sorted : ∀ (subs : List (List Char × ℕ)) (k : List Char) (v : ℕ),
    List.Pairwise (fun a b => strLt a.1 b.1 = true) subs →
    List.Pairwise (fun a b => strLt a.1 b.1 = true) (mapInsert k v subs) := by
  intro subs
  induction subs with
  | nil =>
    intro k v _
    simp [mapInsert]
  | cons e rest ih =>
    intro k v hp
    obtain ⟨k2, v2⟩ := e
    rw [List.pairwise_cons] at hp
    rw [mapInsert]
    by_cases h1 : strLt k k2
    · rw [if_pos h1]
      rw [List.pairwise_cons]
      constructor
      · intro x hx
        rcases List.mem_cons.mp hx with h | h
        · rw [h]
          exact h1
        · exact strLt_trans _ _ _ h1 (hp.1 x h)
      · rw [List.pairwise_cons]
        exact hp
    · rw [if_neg h1]
      by_cases h2 : k = k2
      · rw [if_pos h2]
        rw [List.pairwise_cons]
        constructor
        · intro x hx
          rw [h2]
          exact hp.1 x hx
        · exact hp.2
      · rw [if_neg h2]
        rw [List.pairwise_cons]
        constructor
        · intro x hx
          rcases mapInsert_mem rest k v x hx with h3 | h3
          · rw [h3]
            exact strLt_total k k2 (by simpa using h1) h2
          · exact hp.1 x h3
        · exact ih k v hp.2

/-- C9: the dispatch of `message_arrived` invokes at most one callback per
message — exactly the one of the first pattern in the subscription map's
iteration order that matches the topic: a matching entry preceded only by
non-matching patterns is the one invoked, no callback runs when nothing
matches, any invoked callback belongs to a matching pattern, and map
insertion keeps the iteration order sorted by pattern key. -/
theorem message_arrived_spec :
    (∀ (l1 l2 : List (List Char × ℕ)) (e : List Char × ℕ) (topic : List Char),
      (∀ q ∈ l1, topicMatches q.1 topic = false) →
      topicMatches e.1 topic = true →
      message_arrived (l1 ++ e :: l2) topic = some e.2)
    ∧ (∀ (subs : List (List Char × ℕ)) (topic : List Char),
      message_arrived subs topic = none ↔
        ∀ e ∈ subs, topicMatches e.1 topic = false)
    ∧ (∀ (subs : List (List Char × ℕ)) (topic : List Char) (c : ℕ),
      message_arrived subs topic = some c →
        ∃ e ∈ subs, topicMatches e.1 topic = true ∧ e.2 = c)
    ∧ (∀ (k : List Char) (v : ℕ) (subs : List (List Char × ℕ)),
      List.Pairwise (fun a b => strLt a.1 b.1 = true) subs →
      List.Pairwise (fun a b => strLt a.1 b.1 = true) (mapInsert k v subs)) := by
  refine ⟨?_, ?_, ?_, fun k v subs h => mapInsert_sorted subs k v h⟩
  · intro l1
    induction l1 with
    | nil =>
      intro l2 e topic _ he
      unfold message_arrived
      rw [List.nil_append, List.find?_cons_of_pos (p := fun q : List Char × ℕ => topicMatches q.1 topic) _ he]
      rfl
    | cons q l1 ih =>
      intro l2 e topic hq he
      unfold message_arrived
      rw [List.cons_append,
        List.find?_cons_of_neg (p := fun r : List Char × ℕ => topicMatches r.1 topic) _
          (by simp [hq q (List.mem_cons_self q l1)])]
      exact ih l2 e topic (fun r hr => hq r (List.mem_cons_of_mem q hr)) he
  · intro subs topic
    unfold message_arrived
    constructor
    · intro h e he
      rcases hf : subs.find? fun e2 => topicMatches e2.1 topic with _ | e2
      · have := List.find?_eq_none.mp hf e he
        simpa using this
      · rw [hf] at h
        simp at h
    · intro h
      rw [List.find?_eq_none.mpr (fun e he => by simp [h e he])]
      rfl
  · intro subs topic c h
    rcases hf : subs.find? fun e2 => topicMatches e2.1 topic with _ | e2
    · unfold message_arrived at h
      rw [hf] at h
      simp at h
    · unfold message_arrived at h
      rw [hf] at h
      simp at h
      have hps := List.find?_some hf
      exact ⟨e2, List.mem_of_find?_eq_some hf, hps, h⟩

/-- Witness for C9: with patterns `z/#` then `z/+` registered (the map
iterates `z/#` first), a message on `z/a` invokes callback 2 only, and the
built map is sorted. -/
theorem message_arrived_spec_witness :
    message_arrived [(['z', '/', '#'], 2), (['z', '/', '+'], 1)] ['z', '/', 'a']
        = some 2
    ∧ mapInsert ['z', '/', '#'] 2 (mapInsert ['z', '/', '+'] 1 [])
        = [(['z', '/', '#'], 2), (['z', '/', '+'], 1)]
    ∧ List.Pairwise (fun a b => strLt a.1 b.1 = true)
        (mapInsert ['z', '/', '#'] 2 (mapInsert ['z', '/', '+'] 1 [])) := by
  refine ⟨?_, by decide, ?_⟩
  · have h := message_arrived_spec.1 [] [(['z', '/', '+'], 1)]
      (['z', '/', '#'], 2) ['z', '/', 'a'] (by simp) (by decide)
    simpa using h
  · exact message_arrived_spec.2.2.2 ['z', '/', '#'] 2
      (mapInsert ['z', '/', '+'] 1 [])
      (message_arrived_spec.2.2.2 ['z', '/', '+'] 1 [] List.Pairwise.nil)

end HmsDetection

namespace HmsDetection

/-! ## VisionClient: snapshot analysis early exits

Embedding of `VisionClient::analyze` (vision_client.cpp).  The snapshot
file is an `Option (List ℕ)` of bytes (none: the `ifstream` cannot open
the path).  The libcurl POST and the JSON field extraction
`j.value("response", "")` are abstracted into one collaborator function
from the image bytes to `none` (curl error) or the HTTP status code and
the extracted response text; everything around it — the early returns
before any request, the status check, the whitespace trim and the
length/space validation — is the C++ control flow.  The wall-clock
`response_time_seconds` is modelled as 0.  The second component of the
result counts the HTTP requests issued. -/

structure VCResult where
  context : List Char
  response_time_seconds : ℚ
  is_valid : Bool

namespace VisionClient

/-- Whitespace set `" \t\n\r"` of the trim in `VisionClient::analyze`. -/
def isWs (c : Char) : Bool :=
  c = ' ' || c = '\t' || c = '\n' || c = '\r'

/-- The two-sided trim of `VisionClient::analyze`: `find_first_not_of` /
`find_last_not_of` leave the string unchanged when every character is
whitespace (npos on both probes). -/
def cppTrim (s : List Char) : List Char :=
  if s.all isWs then s
  else ((s.dropWhile isWs).reverse.dropWhile isWs).reverse

/-- Embedding of `VisionClient::analyze`. -/
def analyze (file : Option (List ℕ))
    (http : List ℕ → Option (ℤ × List Char)) : VCResult × ℕ :=
  match file with
  | none => (⟨[], 0, false⟩, 0)
  | some image_data =>
    if image_data = [] then (⟨[], 0, false⟩, 0)
    else
      match http image_data with
      | none => (⟨[], 0, false⟩, 1)
      | some (code, response) =>
        if code ≠ 200 then (⟨[], 0, false⟩, 1)
        else
          (⟨cppTrim response, 0,
            decide (15 ≤ (cppTrim response).length)
              && (cppTrim response).contains ' '⟩, 1)

end VisionClient

/-- C10: when the snapshot path cannot be opened or names an empty file,
`analyze` returns the default result — empty context, `is_valid = false`
(and zero response time) — without issuing any HTTP request, whatever the
vision endpoint would answer. -/
theorem visionClient_analyze_spec :
    ∀ (http : List ℕ → Option (ℤ × List Char)) (file : Option (List ℕ)),
      file = none ∨ file = some [] →
      VisionClient.analyze file http = (⟨[], 0, false⟩, 0) := by
  intro http file h
  rcases h with h | h
  · rw [h]
    rfl
  · rw [h]
    rfl

/-- Witness for C10 at a concrete collaborator that would answer a valid
long response: the unopenable and the empty snapshot both yield the
invalid empty result with zero requests. -/
theorem visionClient_analyze_spec_witness :
    VisionClient.analyze none
        (fun _ => some (200, ['a', ' ', 'l', 'o', 'n', 'g', ' ', 'a', 'n',
          's', 'w', 'e', 'r', ' ', 'o', 'k']))
      = (⟨[], 0, false⟩, 0)
    ∧ VisionClient.analyze (some [])
        (fun _ => some (200, ['a', ' ', 'l', 'o', 'n', 'g', ' ', 'a', 'n',
          's', 'w', 'e', 'r', ' ', 'o', 'k']))
      = (⟨[], 0, false⟩, 0) := by
  constructor
  · exact visionClient_analyze_spec _ none (Or.inl rfl)
  · exact visionClient_analyze_spec _ (some []) (Or.inr rfl)

end HmsDetection

namespace HmsDetection

/-! ## EventManager: per-camera event lifecycle

Embedding of the active-events bookkeeping of `EventManager`
(event_manager.cpp).  The `unordered_map<string, unique_ptr<ActiveEvent>>`
is an association list of camera id (a `List Char`) to the event flags.
`onMotionStart` ignores the trigger when the camera already has an entry
(returning true for "ignored"), else inserts a fresh entry with
`running = true` and spawns the event thread.  The end of `processEvent`
runs the cleanup block: it erases the entry only when `running` is already
false — but the spawning lambda sets `running = false` only after
`processEvent` has returned, so at cleanup time the flag is still true.
`eventDrain` is a full event lifetime: the cleanup block followed by the
thread's `running = false` store. -/

structure ActiveEvent where
  stop_requested : Bool
  running : Bool
deriving DecidableEq

namespace EventManager

/-- Embedding of `EventManager::onMotionStart`: true means the trigger was
ignored because an entry for the camera already exists. -/
def onMotionStart (m : List (List Char × ActiveEvent)) (cam : List Char) :
    Bool × List (List Char × ActiveEvent) :=
  match m.find? (fun e => e.1 = cam) with
  | some _ => (true, m)
  | none => (false, m ++ [(cam, ⟨false, true⟩)])

/-- Embedding of `EventManager::onMotionStop`: set the stop flag of the
camera's event if one is active. -/
def onMotionStop (m : List (List Char × ActiveEvent)) (cam : List Char) :
    List (List Char × ActiveEvent) :=
  m.map fun e => if e.1 = cam then (e.1, ⟨true, e.2.running⟩) else e

/-- The cleanup block at the end of `EventManager::processEvent`: erase
the camera's entry only if its `running` flag is already false. -/
def processEventCleanup (m : List (List Char × ActiveEvent)) (cam : List Char) :
    List (List Char × ActiveEvent) :=
  match m.find? (fun e => e.1 = cam) with
  | some e =>
    if e.2.running = false then m.filter (fun e2 => ¬ (e2.1 = cam)) else m
  | none => m

/-- The `event_ptr->running = false` store the spawning lambda performs
after `processEvent` returns. -/
def threadFinish (m : List (List Char × ActiveEvent)) (cam : List Char) :
    List (List Char × ActiveEvent) :=
  m.map fun e => if e.1 = cam then (e.1, ⟨e.2.stop_requested, false⟩) else e

/-- Embedding of `EventManager::activeEventCount`. -/
def activeEventCount (m : List (List Char × ActiveEvent)) : ℕ := m.length

/-- One complete event lifetime for a camera, in execution order: the
cleanup block inside `processEvent`, then the thread's final store. -/
def eventDrain (m : List (List Char × ActiveEvent)) (cam : List Char) :
    List (List Char × ActiveEvent) :=
  threadFinish (processEventCleanup m cam) cam

end EventManager

/-- C1, code behaviour at the failing input: a second motion start during
an active event is ignored with the map unchanged (the claim's first
part), but after the event drains the entry is never erased — the cleanup
guard `!running` is always false inside `processEvent` — so the active
count settles to 1 instead of 0 and a later motion start for the same
camera is ignored instead of spawning a new event.  This contradicts the
claim and the repository's own tests, which require a count of 0 and
re-use of the camera. -/
theorem eventManager_cleanup_bug :
    (EventManager.onMotionStart [] ['c']).1 = false
    ∧ (EventManager.onMotionStart
        (EventManager.onMotionStart [] ['c']).2 ['c']).1 = true
    ∧ (EventManager.onMotionStart
        (EventManager.onMotionStart [] ['c']).2 ['c']).2
      = (EventManager.onMotionStart [] ['c']).2
    ∧ EventManager.activeEventCount
        (EventManager.eventDrain (EventManager.onMotionStart [] ['c']).2 ['c'])
      = 1
    ∧ (EventManager.onMotionStart
        (EventManager.eventDrain
          (EventManager.onMotionStart [] ['c']).2 ['c']) ['c']).1 = true := by
  decide

end HmsDetection
